import Mathlib

/-
Shallow Lean embedding of the MindBot runtime core, used to check the
natural-language specification against the source.

Modelled modules:
  * the inbound-message dedup cache of src/dingtalk_client.py
    (_is_duplicate_message, _add_recent_message, and the dedup part of process);
  * the streaming reply controller of src/dingtalk_client.py
    (_process_streaming_response with its fluid_streaming_callback);
  * the event bus of mindbot_framework/core/event_bus.py;
  * the lifecycle manager of mindbot_framework/core/lifecycle.py;
  * the task manager of src/runtime/task_manager.py and the runtime adapter
    of src/runtime/runtime_adapter.py.

Modelling conventions: wall-clock instants are rationals (seconds, as
returned by time.time / datetime.now); Python dicts appear as association
lists that preserve insertion order and key uniqueness; logging, log
timestamps and error strings are elided as they feed no control flow.
-/

namespace Dedup

/-- Wall-clock instants (`time.time()` values) are kept abstract: any
linearly ordered commutative ring of "seconds" works for these claims; ℚ
recovers real-valued clock readings, ℤ gives an executable instance. -/
abbrev Cache (τ : Type) := List (String × τ)

variable {τ : Type} [LinearOrderedCommRing τ]

/-- Constant `self._message_ttl = 300` (seconds). -/
def message_ttl (τ : Type) [LinearOrderedCommRing τ] : τ := 300

/-- Constant `self._max_recent_messages = 100`. -/
def max_recent_messages : Nat := 100

/-- Python dict lookup: first (unique) matching key. -/
def lookupD : Cache τ → String → Option τ
  | [], _ => none
  | (k1, v1) :: rest, k => if k1 = k then some v1 else lookupD rest k

/-- Python dict assignment `d[k] = v`: update in place if the key exists
(keeping its position), otherwise append. -/
def insertD : Cache τ → String → τ → Cache τ
  | [], k, v => [(k, v)]
  | (k1, v1) :: rest, k, v =>
    if k1 = k then (k1, v) :: rest else (k1, v1) :: insertD rest k v

/-- Python dict deletion `del d[k]`. -/
def eraseD : Cache τ → String → Cache τ
  | [], _ => []
  | (k1, v1) :: rest, k => if k1 = k then rest else (k1, v1) :: eraseD rest k

/-- Stable insertion step for descending-by-timestamp order, matching the
stability of Python `sorted(..., key=lambda x: x[1], reverse=True)`. -/
def insertByTime (x : String × τ) : Cache τ → Cache τ
  | [] => [x]
  | y :: ys => if y.2 ≤ x.2 then x :: y :: ys else y :: insertByTime x ys

/-- Stable sort by timestamp, most recent first, as used by
`_add_recent_message` for capacity eviction. -/
def sortByTimeDesc : Cache τ → Cache τ
  | [] => []
  | x :: xs => insertByTime x (sortByTimeDesc xs)

/-- Models `_is_duplicate_message` (src/dingtalk_client.py:942-964): true iff the
hash is present and fresh; an expired entry for that hash is deleted on
lookup.  Returns the flag together with the updated cache. -/
def is_duplicate_message (now : τ) (c : Cache τ) (h : String) : Bool × Cache τ :=
  match lookupD c h with
  | some ts =>
    if now - ts < message_ttl τ then (true, c) else (false, eraseD c h)
  | none => (false, c)

/-- The expired-entry sweep of `_add_recent_message`
(src/dingtalk_client.py:979-985): drop every entry with
`current_time - timestamp > ttl`. -/
def sweep (now : τ) (c : Cache τ) : Cache τ :=
  c.filter (fun p => !(decide (now - p.2 > message_ttl τ)))

/-- Models `_add_recent_message` (src/dingtalk_client.py:966-995): insert with the
current timestamp, sweep every expired entry, and if the cache still holds
more than `max_recent_messages` entries keep only the
`max_recent_messages / 2` most recent ones (stable sort, newest first). -/
def add_recent_message (now : τ) (c : Cache τ) (h : String) : Cache τ :=
  let c2 := sweep now (insertD c h now)
  if c2.length > max_recent_messages then
    (sortByTimeDesc c2).take (max_recent_messages / 2)
  else
    c2

/-- The dedup portion of `process` (src/dingtalk_client.py:219-231): a
detected duplicate is acknowledged without invoking the downstream agent
pipeline; a fresh message is recorded and then handed to the handler.
Returns (new cache, handler invoked?, acknowledged as duplicate?). -/
def processMsg (now : τ) (c : Cache τ) (h : String) : Cache τ × Bool × Bool :=
  let r := is_duplicate_message now c h
  if r.1 then (r.2, false, true)
  else (add_recent_message now r.2 h, true, false)

/-- A run of `process` over a sequence of arrival times of messages that all
share the dedup hash `h`; counts downstream handler invocations. -/
def runProcess (h : String) : Cache τ → List τ → Cache τ × Nat
  | c, [] => (c, 0)
  | c, t :: ts =>
    let r := processMsg t c h
    let rest := runProcess h r.1 ts
    (rest.1, (if r.2.1 then 1 else 0) + rest.2)

/-- The eviction scenario of the spec: `max_recent_messages + 1` distinct
fingerprints recorded at times 0, 1, ..., 100. -/
def evictionScenario : Cache ℤ :=
  (List.range (max_recent_messages + 1)).foldl
    (fun c i => add_recent_message (i : ℤ) c (toString i)) []

end Dedup

namespace Streaming

/-- One renderer update, i.e. one `card_instance.async_streaming(...)` call
of `_process_streaming_response` (fields `content_value`, `append`,
`finished`, `failed`; the constant card id and content key are elided). -/
structure UpdateCall where
  content : String
  append : Bool
  finished : Bool
  failed : Bool
deriving DecidableEq

/-- The mutable closure state of `fluid_streaming_callback`
(src/dingtalk_client.py:369-426): `accumulated_content`,
`last_update_length`, `last_update_time`. -/
structure CbState where
  accumulated_content : String
  last_update_length : Nat
  last_update_time : ℚ
deriving DecidableEq

/-- Constant `FLUID_STREAMING_MIN_CHUNK = 10` (src/dingtalk_client.py:29). -/
def min_chunk_size : Nat := 10

/-- Constant `max_update_interval = 0.5` seconds (src/dingtalk_client.py:374). -/
def max_update_interval : ℚ := 1 / 2

/-- Constant `max_streaming_duration = 120` seconds (src/dingtalk_client.py:376). -/
def max_streaming_duration : ℚ := 120

/-- The user-facing timeout message returned (and rendered) when the
streaming operation exceeds `max_streaming_duration`. -/
def timeoutMessage : String := "I\x27m sorry, the response took too long. Please try again."

/-- Models `content_value.endswith(('.', '!', '?', '\n', ','))`. -/
def endsWithPunct (s : String) : Bool :=
  s.endsWith (".") || s.endsWith ("!") || s.endsWith ("?") ||
    s.endsWith ("\n") || s.endsWith (",")

/-- One delivered chunk: its text, the wall-clock instant at which the
callback runs for it, and the renderer's success result should an update be
attempted for it. -/
structure ChunkEv where
  chunk : String
  time : ℚ
  rendererOk : Bool

/-- One invocation of `fluid_streaming_callback` (src/dingtalk_client.py:
379-426) on a chunk: skip everything once past the overall deadline;
otherwise accumulate, decide whether to flush by the combined policy, and on
a flush record the new length/time only if the renderer reported success.
(`current_length - last_update_length` never underflows because the
accumulated content only grows, so Nat subtraction is faithful here.)
Returns (new state, update sent if any, value returned to the generator). -/
def fluidCallback (streaming_start_time : ℚ) (st : CbState) (e : ChunkEv) :
    CbState × Option UpdateCall × Bool :=
  if e.time - streaming_start_time > max_streaming_duration then
    (st, none, false)
  else
    let acc := st.accumulated_content ++ e.chunk
    let current_length := acc.length
    let should_update :=
      decide (current_length - st.last_update_length ≥ min_chunk_size) ||
      endsWithPunct e.chunk ||
      decide (e.time - st.last_update_time ≥ max_update_interval) ||
      decide (e.chunk.length ≥ 5)
    if should_update then
      let upd : UpdateCall := ⟨acc, false, false, false⟩
      if e.rendererOk then
        (⟨acc, current_length, e.time⟩, some upd, true)
      else
        (⟨acc, st.last_update_length, st.last_update_time⟩, some upd, false)
    else
      (⟨acc, st.last_update_length, st.last_update_time⟩, none, true)

/-- Folding the callback over the delivered chunk stream, collecting the
partial updates that were sent. -/
def runChunks (streaming_start_time : ℚ) : CbState → List ChunkEv →
    CbState × List UpdateCall
  | st, [] => (st, [])
  | st, e :: es =>
    let r := fluidCallback streaming_start_time st e
    let rest := runChunks streaming_start_time r.1 es
    (rest.1, r.2.1.toList ++ rest.2)

/-- Modelled from the spec: the generation collaborator's streaming method
`chat_completion_streaming_with_callback` is not part of this repository
(only its call sites are).  Per the spec it delivers each chunk to the
callback and, on normal completion, returns the complete text; the complete
text of a chunk stream is the concatenation of its chunks. -/
def streamFullText (chunks : List String) : String :=
  String.join chunks

/-- The initial callback state opened by `_process_streaming_response`:
empty accumulated content and `last_update_time = streaming_start_time`. -/
def initCbState (streaming_start_time : ℚ) : CbState :=
  ⟨"", 0, streaming_start_time⟩

/-- The normal-completion path of `_process_streaming_response`
(src/dingtalk_client.py:428-465): the generation stream delivers all its
chunks through `fluid_streaming_callback`, `asyncio.wait_for` returns the
collaborator's full text, and then — whether or not the accumulated content
already equals that full text — exactly one further `async_streaming` call
is made carrying the full text with `finished=True`, and the full text is
returned to the caller.  Result: (all renderer updates in order, returned
text). -/
def processStreamingNormal (streaming_start_time : ℚ) (events : List ChunkEv) :
    List UpdateCall × String :=
  let full := streamFullText (events.map (·.chunk))
  let r := runChunks streaming_start_time (initCbState streaming_start_time) events
  if r.1.accumulated_content ≠ full then
    (r.2 ++ [⟨full, false, true, false⟩], full)
  else
    (r.2 ++ [⟨full, false, true, false⟩], full)

/-- The timeout path of `_process_streaming_response`
(src/dingtalk_client.py:483-494): `asyncio.wait_for` raises TimeoutError
after some prefix of the chunk stream was delivered; one `async_streaming`
call with `failed=True` carrying the timeout message is made and the
timeout message is returned to the caller. -/
def processStreamingTimeout (streaming_start_time : ℚ)
    (deliveredBeforeTimeout : List ChunkEv) : List UpdateCall × String :=
  let r := runChunks streaming_start_time (initCbState streaming_start_time)
      deliveredBeforeTimeout
  (r.2 ++ [⟨timeoutMessage, false, false, true⟩], timeoutMessage)

end Streaming

namespace EvBus

/-- Enum `EventType` (mindbot_framework/core/event_bus.py:16-24). -/
inductive EventType
  | message_received | message_sent | platform_connected
  | platform_disconnected | error_occurred | health_check_ev | custom
deriving DecidableEq

/-- Record `Event` (mindbot_framework/core/event_bus.py:26-34); the `data` and
`metadata` payload dicts carry no control flow and are elided. -/
structure Event where
  id : String
  type : EventType
  source : String
  timestamp : ℚ
deriving DecidableEq

/-- An `asyncio.Queue`: `maxsize` (0 means unbounded, as in the asyncio
default) and the queued items in FIFO order. -/
structure AQueue where
  maxsize : Nat
  items : List Event
deriving DecidableEq

/-- Models `asyncio.Queue.full()`: never true when `maxsize` is 0, otherwise true
iff the current size has reached `maxsize`. -/
def AQueue.full (q : AQueue) : Bool :=
  if q.maxsize ≤ 0 then false else q.items.length ≥ q.maxsize

/-- The `EventBus` state (mindbot_framework/core/event_bus.py:41-50): the
event queue and the `is_running` flag.  The subscriber sets and the named
handler map never touch the queue or the flag and are elided. -/
structure EventBusState where
  event_queue : AQueue
  is_running : Bool
deriving DecidableEq

/-- Models `EventBus.__init__`: it creates `asyncio.Queue()` — with the default
`maxsize=0`, i.e. without a size bound — and `is_running = False`. -/
def initBus : EventBusState :=
  ⟨⟨0, []⟩, false⟩

/-- Models `publish` (mindbot_framework/core/event_bus.py:67-75): `await
queue.put(event)`; on this queue (`maxsize=0`) `put` never waits and simply
appends. -/
def publish (s : EventBusState) (e : Event) : EventBusState :=
  { s with event_queue := { s.event_queue with items := s.event_queue.items ++ [e] } }

/-- Models `start`: sets `is_running = True` (the spawned consumer task is the
`dequeue` step below). -/
def startBus (s : EventBusState) : EventBusState :=
  { s with is_running := true }

/-- Models `stop`: sets `is_running = False`. -/
def stopBus (s : EventBusState) : EventBusState :=
  { s with is_running := false }

/-- One iteration of `_process_events`: `queue.get()` removes the head event
(when one is present; handler dispatch does not touch the bus state). -/
def dequeue (s : EventBusState) : EventBusState :=
  { s with event_queue := { s.event_queue with items := s.event_queue.items.tail } }

/-- Models `health_check` (mindbot_framework/core/event_bus.py:220-224):
`self.is_running and not self.event_queue.full()`. -/
def health_check (s : EventBusState) : Bool :=
  s.is_running && !s.event_queue.full

/-- The event-bus states reachable from construction through its public
operations. -/
inductive Reachable : EventBusState → Prop
  | init : Reachable initBus
  | start {s} : Reachable s → Reachable (startBus s)
  | stop {s} : Reachable s → Reachable (stopBus s)
  | publish {s} (e : Event) : Reachable s → Reachable (publish s e)
  | dequeue {s} : Reachable s → Reachable (dequeue s)

/-- A sequence of publishes with no consumption in between. -/
def publishAll (s : EventBusState) (es : List Event) : EventBusState :=
  es.foldl publish s

end EvBus

namespace Lifecycle

/-- Enum `LifecycleStage` (mindbot_framework/core/lifecycle.py:16-23), in
declared (execution) order. -/
inductive Stage
  | setup_logging | load_configuration | initialize_database
  | start_platform_adapters | start_event_processing | ready
deriving DecidableEq

/-- The declared order of a stage within the enum. -/
def Stage.idx : Stage → Nat
  | .setup_logging => 0
  | .load_configuration => 1
  | .initialize_database => 2
  | .start_platform_adapters => 3
  | .start_event_processing => 4
  | .ready => 5

/-- The loop `for stage in LifecycleStage` iterates the stages in declared order. -/
def allStages : List Stage :=
  [.setup_logging, .load_configuration, .initialize_database,
   .start_platform_adapters, .start_event_processing, .ready]

/-- Enum of `ComponentStatus.status` values (mindbot_framework/core/lifecycle.py:30). -/
inductive CStatus
  | pending | running | completed | failed
deriving DecidableEq

/-- The per-component record kept by the manager: its registered stage and
current status (`ComponentStatus` without the elided timestamps/error
string). -/
structure CompRec where
  stage : Stage
  status : CStatus
deriving DecidableEq

/-- The `LifecycleManager` state (mindbot_framework/core/lifecycle.py:40-46):
the parallel `components` / `component_status` dicts collapse to one
insertion-ordered association list, plus the two flags. -/
structure LCState where
  comps : List (String × CompRec)
  is_initialized : Bool
  is_shutting_down : Bool
deriving DecidableEq

/-- A fresh `LifecycleManager()`. -/
def lcInit : LCState :=
  ⟨[], false, false⟩

/-- Python dict lookup in the component map. -/
def lookupC : List (String × CompRec) → String → Option CompRec
  | [], _ => none
  | (k1, v1) :: rest, k => if k1 = k then some v1 else lookupC rest k

/-- Models `register_component` (mindbot_framework/core/lifecycle.py:62-70): dict
assignment — overwrite in place if the name exists, else append, with
status `pending`. -/
def registerOne : List (String × CompRec) → String × Stage → List (String × CompRec)
  | [], (n, s) => [(n, ⟨s, .pending⟩)]
  | (k1, v1) :: rest, (n, s) =>
    if k1 = n then (k1, ⟨s, .pending⟩) :: rest
    else (k1, v1) :: registerOne rest (n, s)

/-- A manager on which a sequence of `register_component` calls has run. -/
def mkInitial (regs : List (String × Stage)) : LCState :=
  ⟨regs.foldl registerOne [], false, false⟩

/-- Update one component's status in place. -/
def setStatus (m : List (String × CompRec)) (n : String) (st : CStatus) :
    List (String × CompRec) :=
  m.map (fun p => if p.1 = n then (p.1, ⟨p.2.stage, st⟩) else p)

/-- Models `get_health_status` (mindbot_framework/core/lifecycle.py:246-268). -/
def get_health_status (s : LCState) : String :=
  if s.is_shutting_down then "shutting_down"
  else if !s.is_initialized then "initializing"
  else if s.comps.any (fun p => p.2.status = .failed) then "unhealthy"
  else if s.comps.all (fun p => p.2.status = .completed) then "healthy"
  else "initializing"

/-- The health derivation exactly as the spec sentence states it:
"shutting_down" if mid-shutdown, else "unhealthy" if any component failed,
else "healthy" if all completed, else "initializing".  Written from the
spec's words, to be compared with `get_health_status` from the source. -/
def specHealthStatus (s : LCState) : String :=
  if s.is_shutting_down then "shutting_down"
  else if s.comps.any (fun p => p.2.status = .failed) then "unhealthy"
  else if s.comps.all (fun p => p.2.status = .completed) then "healthy"
  else "initializing"

/-- Visible actions of a lifecycle run, in execution order: a stage handler
ran (with success flag), a component's init hook was entered
(`status := "running"`), a component's init hook finished (with success
flag), `shutdown()` began, a shutdown handler ran, a component's shutdown
hook ran. -/
inductive Ev
  | handlerRun (s : Stage) (ok : Bool)
  | compStart (n : String)
  | compDone (n : String) (ok : Bool)
  | shutdownStarted
  | shutdownHandlerRun (ok : Bool)
  | compShutdown (n : String) (ok : Bool)
deriving DecidableEq

/-- The environment's behaviour, standing in for the duck-typed hooks: does
component `n`'s init-or-start hook succeed; the success outcomes of each
stage's registered handlers in order; the outcomes of the registered
shutdown handlers; does component `n`'s shutdown-or-stop hook succeed. -/
structure Behavior where
  initOk : String → Bool
  handlerOut : Stage → List Bool
  sdHandlerOut : List Bool
  sdOk : String → Bool

/-- Running one stage's handlers sequentially
(mindbot_framework/core/lifecycle.py:126-129): a raising handler is caught
by `_execute_stage`'s `except`, which fails the stage; later handlers of
that stage do not run. -/
def runHandlers (s : Stage) : List Bool → Bool × List Ev
  | [] => (true, [])
  | b :: bs =>
    if b then
      let r := runHandlers s bs
      (r.1, .handlerRun s true :: r.2)
    else (false, [.handlerRun s false])

/-- Models `_initialize_component` over a stage's pending components in
registration order (mindbot_framework/core/lifecycle.py:137-140,151-179):
mark running, run the hook, mark completed or failed; the first failure
aborts the rest of the stage. -/
def initComps (B : Behavior) : List String → List (String × CompRec) →
    Bool × List (String × CompRec) × List Ev
  | [], m => (true, m, [])
  | n :: rest, m =>
    let m1 := setStatus m n .running
    if B.initOk n then
      let m2 := setStatus m1 n .completed
      let r := initComps B rest m2
      (r.1, r.2.1, .compStart n :: .compDone n true :: r.2.2)
    else
      (false, setStatus m1 n .failed, [.compStart n, .compDone n false])

/-- Models `_execute_stage` (mindbot_framework/core/lifecycle.py:120-149): run the
stage's handlers, then initialize the stage's still-pending components in
registration order. -/
def execStage (B : Behavior) (st : LCState) (s : Stage) :
    Bool × LCState × List Ev :=
  let h := runHandlers s (B.handlerOut s)
  if h.1 then
    let names :=
      (st.comps.filter (fun p => p.2.stage = s ∧ p.2.status = .pending)).map (·.1)
    let r := initComps B names st.comps
    (r.1, { st with comps := r.2.1 }, h.2 ++ r.2.2)
  else (false, st, h.2)

/-- The stage loop of `initialize` (mindbot_framework/core/lifecycle.py:
97-107): stages in declared order, `READY` skipped, stopping at the first
failing stage. -/
def runStages (B : Behavior) : List Stage → LCState → Bool × LCState × List Ev
  | [], st => (true, st, [])
  | s :: rest, st =>
    if s = .ready then runStages B rest st
    else
      let r := execStage B st s
      if r.1 then
        let r2 := runStages B rest r.2.1
        (r2.1, r2.2.1, r.2.2 ++ r2.2.2)
      else (false, r.2.1, r.2.2)

/-- Models `_shutdown_component` over the registered components in reverse
registration order (mindbot_framework/core/lifecycle.py:199-227): a
successful shutdown hook sets the component's status to "completed"; a
raising hook is logged and leaves the status untouched. -/
def shutComps (B : Behavior) : List String → List (String × CompRec) →
    List (String × CompRec) × List Ev
  | [], m => (m, [])
  | n :: rest, m =>
    let m1 := if B.sdOk n then setStatus m n .completed else m
    let r := shutComps B rest m1
    (r.1, .compShutdown n (B.sdOk n) :: r.2)

/-- Models `shutdown` (mindbot_framework/core/lifecycle.py:181-206): idempotent;
runs the shutdown handlers (failures logged, not fatal), then shuts the
components down in reverse registration order. -/
def shutdownLM (B : Behavior) (st : LCState) : LCState × List Ev :=
  if st.is_shutting_down then (st, [])
  else
    let st1 := { st with is_shutting_down := true }
    let r := shutComps B (st1.comps.map (·.1)).reverse st1.comps
    ({ st1 with comps := r.1 },
      B.sdHandlerOut.map Ev.shutdownHandlerRun ++ r.2)

/-- Models `initialize` (mindbot_framework/core/lifecycle.py:84-118): return
immediately when already initialized; otherwise run the stages in order; on
success set `is_initialized`; on any stage failure call `shutdown()` and
return failure. -/
def initializeLM (B : Behavior) (st : LCState) : Bool × LCState × List Ev :=
  if st.is_initialized then (true, st, [])
  else
    let r := runStages B allStages st
    if r.1 then (true, { r.2.1 with is_initialized := true }, r.2.2)
    else
      let sd := shutdownLM B r.2.1
      (false, sd.1, r.2.2 ++ Ev.shutdownStarted :: sd.2)

/-- Temporal precedence inside a trace: every occurrence of `b` is preceded
by an occurrence of `a`. -/
def Precedes (a b : Ev) (tr : List Ev) : Prop :=
  ∀ pre post, tr = pre ++ b :: post → a ∈ pre

/-- A failing action: a stage handler that raised or a component whose init
hook raised. -/
def isFailEv : Ev → Bool
  | .handlerRun _ ok => !ok
  | .compDone _ ok => !ok
  | _ => false

end Lifecycle

namespace Runtime

/-- The slice of an `asyncio.Task` the claims need: whether `cancel()` has
been requested on it. -/
structure PyTask where
  cancelled : Bool
deriving DecidableEq

/-- Record `TaskWrapper` (src/runtime/task_manager.py:42-80); `kind`, `name`,
`context` and `scopes` feed no control flow of the claims and are elided. -/
structure TaskWrapperM where
  task_id : String
  task : PyTask
deriving DecidableEq

/-- A Python value used where `cancel_task` expects a dict key: either an
actual `str` task id, or a `TaskWrapper` object (which is what
`RuntimeAdapter.stop` actually passes at src/runtime/runtime_adapter.py:105). -/
inductive PyDictKey
  | str (s : String)
  | wrapper (w : TaskWrapperM)

/-- Python `in` / `[]` on the `tasks` dict, whose keys are `str` task ids: a
`str` argument matches by string equality; a `TaskWrapper` object has
default identity equality and never equals any `str` key. -/
def keyMatches : PyDictKey → String → Bool
  | .str s, k => s == k
  | .wrapper _, _ => false

/-- The live-task registry `TaskManager.tasks`
(src/runtime/task_manager.py:86). -/
abbrev TaskRegistry := List (String × TaskWrapperM)

/-- Models `cancel_task` (src/runtime/task_manager.py:123-128): if the argument is
present among the dict keys, cancel that entry's task; otherwise do
nothing. -/
def cancel_task (tm : TaskRegistry) (arg : PyDictKey) : TaskRegistry :=
  tm.map (fun p =>
    if keyMatches arg p.1 then (p.1, { p.2 with task := ⟨true⟩ }) else p)

/-- The `RuntimeAdapter` fields the claims need
(src/runtime/runtime_adapter.py:17-42): running flag, enabled flag, the
held `task_wrapper` reference, whether the wrapped adapter has a `cleanup`
hook, and whether that hook has been invoked. -/
structure RAState where
  is_running : Bool
  is_enabled : Bool
  task_wrapper : Option TaskWrapperM
  has_cleanup : Bool
  cleanup_called : Bool
deriving DecidableEq

/-- An adapter together with the task manager it talks to. -/
structure World where
  tm : TaskRegistry
  ra : RAState
deriving DecidableEq

/-- Models `stop` (src/runtime/runtime_adapter.py:94-117): a no-op unless running;
otherwise `self.task_manager.cancel_task(self.task_wrapper)` — note the
argument is the `TaskWrapper` object, not its id — then clear the
reference, invoke the wrapped adapter's `cleanup` hook when present, and
clear `is_running`. -/
def stopAdapter (w : World) : World :=
  if !w.ra.is_running then w
  else
    let tm1 := match w.ra.task_wrapper with
      | some wr => cancel_task w.tm (.wrapper wr)
      | none => w.tm
    { tm := tm1,
      ra := { w.ra with
        is_running := false,
        task_wrapper := none,
        cleanup_called := w.ra.cleanup_called || w.ra.has_cleanup } }

/-- The value of `last_heartbeat` after the run loop of
`_run_with_error_handling` (src/runtime/runtime_adapter.py:126-154) has
been alive for `k` whole seconds, when it started with heartbeat `hb0`
taken at wall-clock `hb0`: with no `run` hook on the wrapped adapter the
keep-alive loop sleeps one second per iteration and refreshes
`last_heartbeat`; with a `run` hook, `adapter_instance.run()` is awaited
and the loop body that refreshes the heartbeat is never entered. -/
def last_heartbeat_after (has_run : Bool) (hb0 : ℚ) (k : Nat) : ℚ :=
  if has_run then hb0 else hb0 + k

/-- Models `health_check` (src/runtime/runtime_adapter.py:213-233): false unless
running; false when the owning task has already completed; false when more
than 300 seconds have passed since `last_heartbeat`. -/
def adapter_health_check (is_running : Bool) (task_done : Bool)
    (last_hb : Option ℚ) (now : ℚ) : Bool :=
  if !is_running then false
  else if task_done then false
  else
    match last_hb with
    | some hb => if now - hb > 300 then false else true
    | none => true

end Runtime

section EventBusLemmas

open EvBus

/-- Every reachable event-bus state keeps the queue it was constructed
with: `maxsize = 0`. -/
theorem evbus_reachable_maxsize {s : EventBusState} (h : Reachable s) :
    s.event_queue.maxsize = 0 := by
  induction h with
  | init => rfl
  | start _ ih => exact ih
  | stop _ ih => exact ih
  | publish e _ ih => exact ih
  | dequeue _ ih => exact ih

/-- A queue with `maxsize = 0` never reports full. -/
theorem aqueue_full_of_maxsize_zero (q : AQueue) (h : q.maxsize = 0) :
    q.full = false := by
  simp [AQueue.full, h]

theorem publishAll_items_length (es : List Event) :
    ∀ s : EventBusState,
      (publishAll s es).event_queue.items.length =
        s.event_queue.items.length + es.length := by
  induction es with
  | nil => intro s; simp [publishAll]
  | cons e es ih =>
    intro s
    simp only [publishAll, List.foldl_cons]
    have h := ih (publish s e)
    simp only [publishAll] at h
    rw [h]
    simp [publish]
    omega

theorem publishAll_maxsize (es : List Event) :
    ∀ s : EventBusState,
      (publishAll s es).event_queue.maxsize = s.event_queue.maxsize := by
  induction es with
  | nil => intro s; simp [publishAll]
  | cons e es ih =>
    intro s
    have h := ih (publish s e)
    simp only [publishAll, List.foldl_cons] at h ⊢
    simpa [publish] using h

end EventBusLemmas

/-- Claim C10: the event bus's health_check() returns exactly the value of
its is_running flag in every reachable state — the queue is created without
a size bound, so the full-queue condition it also tests can never hold, and
a backed-up queue is never reported as unhealthy. -/
theorem c10_health_check_eq_is_running (s : EvBus.EventBusState)
    (h : EvBus.Reachable s) : EvBus.health_check s = s.is_running := by
  have hm := evbus_reachable_maxsize h
  have hf := aqueue_full_of_maxsize_zero _ hm
  simp [EvBus.health_check, hf]

theorem c10_witness :
    EvBus.health_check
        (EvBus.publish (EvBus.startBus EvBus.initBus) ⟨"e1", .custom, "test", 0⟩) =
      (EvBus.publish (EvBus.startBus EvBus.initBus) ⟨"e1", .custom, "test", 0⟩).is_running :=
  c10_health_check_eq_is_running _
    (EvBus.Reachable.publish _ (EvBus.Reachable.start EvBus.Reachable.init))

/-- Claim C8, counterexample: the event bus's queue is created with
`asyncio.Queue()` and no maxsize, so there is no fixed bound that the queue
size respects across publish sequences — for every candidate bound B,
publishing B+1 events leaves B+1 queued events. -/
theorem c8_counterexample :
    ¬ ∃ B : Nat, ∀ es : List EvBus.Event,
        (EvBus.publishAll EvBus.initBus es).event_queue.items.length ≤ B := by
  rintro ⟨B, hB⟩
  have h := hB (List.replicate (B + 1) ⟨"e", .custom, "src", 0⟩)
  rw [publishAll_items_length, List.length_replicate] at h
  have h0 : EvBus.initBus.event_queue.items.length = 0 := rfl
  omega

/-- Claim C8, amended: the event bus's queue is created without a size
bound (asyncio.Queue() with the default maxsize 0); publish(event) always
enqueues immediately without blocking or failing, the queue never reports
full, and after n publishes with no consumption the queue holds exactly n
events — the queue is silently unbounded. -/
theorem c8_queue_unbounded (es : List EvBus.Event) :
    (EvBus.publishAll EvBus.initBus es).event_queue.items.length = es.length ∧
      (EvBus.publishAll EvBus.initBus es).event_queue.full = false := by
  constructor
  · rw [publishAll_items_length]
    simp [EvBus.initBus]
  · exact aqueue_full_of_maxsize_zero _ (by rw [publishAll_maxsize]; rfl)

/-- Claim C7, counterexample: a freshly constructed LifecycleManager (no
components registered, not shutting down, not initialized) is a reachable
state on which the code returns "initializing" while the claimed
derivation — "unhealthy" if any failed, else "healthy" if all (here:
vacuously all zero) components completed, else "initializing" — returns
"healthy". -/
theorem c7_counterexample :
    Lifecycle.get_health_status Lifecycle.lcInit = "initializing" ∧
      Lifecycle.specHealthStatus Lifecycle.lcInit = "healthy" ∧
      Lifecycle.get_health_status Lifecycle.lcInit ≠
        Lifecycle.specHealthStatus Lifecycle.lcInit := by
  refine ⟨rfl, rfl, ?_⟩
  decide

/-- Claim C7, amended: for every lifecycle-manager state, the overall
health status is "shutting_down" iff a shutdown is in progress; "unhealthy"
iff no shutdown is in progress, initialization has completed successfully
and some component failed; "healthy" iff no shutdown is in progress,
initialization has completed and all components completed; and
"initializing" iff no shutdown is in progress and either initialization has
not completed or (no component failed and not all completed). -/
theorem c7_health_characterization (s : Lifecycle.LCState) :
    (Lifecycle.get_health_status s = "shutting_down" ↔
      s.is_shutting_down = true) ∧
    (Lifecycle.get_health_status s = "unhealthy" ↔
      (s.is_shutting_down = false ∧ s.is_initialized = true ∧
        s.comps.any (fun p => p.2.status = .failed) = true)) ∧
    (Lifecycle.get_health_status s = "healthy" ↔
      (s.is_shutting_down = false ∧ s.is_initialized = true ∧
        s.comps.any (fun p => p.2.status = .failed) = false ∧
        s.comps.all (fun p => p.2.status = .completed) = true)) ∧
    (Lifecycle.get_health_status s = "initializing" ↔
      (s.is_shutting_down = false ∧
        (s.is_initialized = false ∨
          (s.comps.any (fun p => p.2.status = .failed) = false ∧
            s.comps.all (fun p => p.2.status = .completed) = false)))) := by
  obtain ⟨comps, init, shut⟩ := s
  cases shut <;> cases init <;>
    cases hA : comps.any (fun p => p.2.status = .failed) <;>
    cases hB : comps.all (fun p => p.2.status = .completed) <;>
    simp only [Lifecycle.get_health_status, hA, hB] <;> decide

/-- Claim C3: demonstration at the failing input.  A running adapter holds
the wrapper of its owning task, registered in the task manager under its
string id with `cancelled = false`.  `stop()` clears `is_running`, invokes
the cleanup hook, and calls `cancel_task(self.task_wrapper)` — but since
`cancel_task` looks its argument up among the string task-id keys and a
TaskWrapper object never equals a str key, the registry is left unchanged
and the owning task is never cancelled.  The last conjunct shows what the
id-keyed call `cancel_task(task_id)` would have done. -/
theorem c3_stop_leaves_owning_task_uncancelled :
    (Runtime.stopAdapter
        ⟨[("platform-adapter-0-abcd1234",
            ⟨"platform-adapter-0-abcd1234", ⟨false⟩⟩)],
          ⟨true, true, some ⟨"platform-adapter-0-abcd1234", ⟨false⟩⟩,
            true, false⟩⟩).ra.is_running = false ∧
    (Runtime.stopAdapter
        ⟨[("platform-adapter-0-abcd1234",
            ⟨"platform-adapter-0-abcd1234", ⟨false⟩⟩)],
          ⟨true, true, some ⟨"platform-adapter-0-abcd1234", ⟨false⟩⟩,
            true, false⟩⟩).ra.cleanup_called = true ∧
    (Runtime.stopAdapter
        ⟨[("platform-adapter-0-abcd1234",
            ⟨"platform-adapter-0-abcd1234", ⟨false⟩⟩)],
          ⟨true, true, some ⟨"platform-adapter-0-abcd1234", ⟨false⟩⟩,
            true, false⟩⟩).tm =
      [("platform-adapter-0-abcd1234",
        ⟨"platform-adapter-0-abcd1234", ⟨false⟩⟩)] ∧
    Runtime.cancel_task
        [("platform-adapter-0-abcd1234",
          ⟨"platform-adapter-0-abcd1234", ⟨false⟩⟩)]
        (.str ("platform-adapter-0-abcd1234")) =
      [("platform-adapter-0-abcd1234",
        ⟨"platform-adapter-0-abcd1234", ⟨true⟩⟩)] := by
  refine ⟨rfl, rfl, by decide, by decide⟩

/-- Claim C9, counterexample: for a wrapped adapter that provides a `run`
hook, the run loop never refreshes `last_heartbeat` — 301 seconds after
start (run loop still alive inside `adapter_instance.run()`), the time
since the last heartbeat is 301 > 300, and health_check reports false. -/
theorem c9_counterexample :
    Runtime.adapter_health_check true false
        (some (Runtime.last_heartbeat_after true 0 301)) 301 = false := by
  have h : ((301 : ℚ) - 0 > 300) := by norm_num
  simp [Runtime.adapter_health_check, Runtime.last_heartbeat_after, h]
  norm_num

/-- Claim C9, amended: the run loop refreshes last_heartbeat once per
second only when the wrapped adapter has no `run` hook; in that case the
time since the last heartbeat observed by health_check stays below the
5-minute threshold as long as the loop is alive.  When the wrapped adapter
provides a `run` hook, the run loop never refreshes last_heartbeat. -/
theorem c9_heartbeat_cadence :
    (∀ (hb0 : ℚ) (k : Nat), Runtime.last_heartbeat_after true hb0 k = hb0) ∧
    (∀ (hb0 now : ℚ) (k : Nat), hb0 + k ≤ now → now ≤ hb0 + k + 1 →
      Runtime.adapter_health_check true false
        (some (Runtime.last_heartbeat_after false hb0 k)) now = true) := by
  constructor
  · intro hb0 k; simp [Runtime.last_heartbeat_after]
  · intro hb0 now k h1 h2
    have hle : ¬ (now - (hb0 + (k : ℚ)) > 300) := by
      push_neg
      linarith
    simp [Runtime.adapter_health_check, Runtime.last_heartbeat_after, hle]

section StreamingLemmas

open Streaming

/-- Every update that `fluid_streaming_callback` itself sends is a partial
one: `finished=False, failed=False`. -/
theorem fluid_upd_shape (t : ℚ) (st : CbState) (e : ChunkEv) :
    (fluidCallback t st e).2.1 = none ∨
      (fluidCallback t st e).2.1 =
        some ⟨st.accumulated_content ++ e.chunk, false, false, false⟩ := by
  unfold fluidCallback
  split_ifs <;> try simp
  all_goals split <;> simp

theorem fluid_upd_flags (t : ℚ) (st : CbState) (e : ChunkEv) (u : UpdateCall)
    (h : (fluidCallback t st e).2.1 = some u) :
    u.finished = false ∧ u.failed = false := by
  rcases fluid_upd_shape t st e with hs | hs <;> rw [hs] at h
  · exact absurd h (by simp)
  · obtain rfl : u = ⟨st.accumulated_content ++ e.chunk, false, false, false⟩ := by
      exact (Option.some.injEq _ _ ▸ h).symm
    exact ⟨rfl, rfl⟩

/-- No partial flush carries a terminal flag: the chunk-stream trace holds
no `finished=True` and no `failed=True` update. -/
theorem runChunks_no_terminal (t : ℚ) (es : List ChunkEv) : ∀ st : CbState,
    (runChunks t st es).2.filter (fun u => u.finished) = [] ∧
      (runChunks t st es).2.filter (fun u => u.failed) = [] := by
  induction es with
  | nil => intro st; simp [runChunks]
  | cons e es ih =>
    intro st
    have hrest := ih (fluidCallback t st e).1
    simp only [runChunks, List.filter_append]
    rw [hrest.1, hrest.2]
    cases hc : (fluidCallback t st e).2.1 with
    | none => simp
    | some u =>
      have hu := fluid_upd_flags t st e u hc
      simp [hu.1, hu.2]

end StreamingLemmas

/-- Claim C1: on normal completion of the generation stream, regardless of
how the coalescing policy batched the partial flushes (i.e. for every
sequence of chunks, arrival instants and renderer results), exactly one
renderer update with finished=true is sent, its content is the generation
collaborator's complete output, and the text returned to the caller is that
same complete output. -/
theorem c1_normal_completion (t : ℚ) (es : List Streaming.ChunkEv) :
    (Streaming.processStreamingNormal t es).1.filter (fun u => u.finished) =
      [⟨Streaming.streamFullText (es.map (·.chunk)), false, true, false⟩] ∧
    (Streaming.processStreamingNormal t es).2 =
      Streaming.streamFullText (es.map (·.chunk)) := by
  simp only [Streaming.processStreamingNormal, ite_self]
  constructor
  · rw [List.filter_append,
      (runChunks_no_terminal t es (Streaming.initCbState t)).1]
    simp
  · trivial

/-- Claim C5: when the overall streaming operation exceeds the hard 120s
timeout, whatever prefix of the stream was delivered and however it was
coalesced, exactly one renderer update with failed=true is emitted — it
carries the designated user-facing timeout message — and that same timeout
message is returned to the caller. -/
theorem c5_timeout_single_failed_update (t : ℚ) (es : List Streaming.ChunkEv) :
    (Streaming.processStreamingTimeout t es).1.filter (fun u => u.failed) =
      [⟨Streaming.timeoutMessage, false, false, true⟩] ∧
    (Streaming.processStreamingTimeout t es).2 = Streaming.timeoutMessage := by
  simp only [Streaming.processStreamingTimeout]
  constructor
  · rw [List.filter_append,
      (runChunks_no_terminal t es (Streaming.initCbState t)).2]
    simp
  · trivial

section DedupLemmas

open Dedup

variable {τ : Type} [LinearOrderedCommRing τ]

/-- A detected duplicate leaves the cache untouched. -/
theorem is_dup_true_cache_unchanged (now : τ) (c : Cache τ) (h : String)
    (hd : (is_duplicate_message now c h).1 = true) :
    (is_duplicate_message now c h).2 = c := by
  by_cases hl : ∃ ts, lookupD c h = some ts ∧ now - ts < message_ttl τ
  · obtain ⟨ts, hts, hlt⟩ := hl
    simp [is_duplicate_message, hts, hlt]
  · exfalso
    rcases hres : lookupD c h with _ | ts
    · simp [is_duplicate_message, hres] at hd
    · have hlt : ¬ (now - ts < message_ttl τ) := fun hc => hl ⟨ts, hres, hc⟩
      simp [is_duplicate_message, hres, hlt] at hd

/-- After a fresh first record, every further same-hash arrival within the
TTL is detected as a duplicate and does not invoke the handler. -/
theorem runProcess_dup_tail (h : String) (t0 : τ) (ts : List τ)
    (hts : ∀ t ∈ ts, t - t0 < message_ttl τ) :
    runProcess h [(h, t0)] ts = ([(h, t0)], 0) := by
  induction ts with
  | nil => rfl
  | cons t ts ih =>
    have hdup : is_duplicate_message t [(h, t0)] h = (true, [(h, t0)]) := by
      have hl : lookupD [(h, t0)] h = some t0 := by simp [lookupD]
      simp [is_duplicate_message, hl, hts t (by simp)]
    have hproc : processMsg t [(h, t0)] h = ([(h, t0)], false, true) := by
      simp [processMsg, hdup]
    simp only [runProcess, hproc]
    rw [ih (fun t ht => hts t (by simp [ht]))]
    simp

/-- Recording the very first message in an empty cache stores exactly its
hash with the current timestamp. -/
theorem add_recent_first (t0 : τ) (h : String) :
    add_recent_message t0 [] h = [(h, t0)] := by
  have h0 : ¬ ((0 : τ) > message_ttl τ) := by
    simp [message_ttl]
  simp [add_recent_message, sweep, insertD, sub_self, h0, max_recent_messages]

end DedupLemmas

/-- Claim C2: is_duplicate(digest) is true iff the digest is present with
age below the TTL; a present-but-expired entry is lazily removed on lookup;
a detected duplicate is acknowledged without invoking the handler and
without touching the cache; and a set of inbound events sharing one dedup
fingerprint, all arriving within the TTL of the first, invokes the
downstream handler exactly once. -/
theorem c2_dedup_exactly_once {τ : Type} [LinearOrderedCommRing τ] :
    (∀ (now : τ) (c : Dedup.Cache τ) (h : String),
      (Dedup.is_duplicate_message now c h).1 = true ↔
        ∃ ts, Dedup.lookupD c h = some ts ∧ now - ts < Dedup.message_ttl τ) ∧
    (∀ (now : τ) (c : Dedup.Cache τ) (h : String) (ts : τ),
      Dedup.lookupD c h = some ts → ¬(now - ts < Dedup.message_ttl τ) →
      (Dedup.is_duplicate_message now c h).2 = Dedup.eraseD c h) ∧
    (∀ (now : τ) (c : Dedup.Cache τ) (h : String),
      (Dedup.is_duplicate_message now c h).1 = true →
      Dedup.processMsg now c h = (c, false, true)) ∧
    (∀ (h : String) (t0 : τ) (ts : List τ),
      (∀ t ∈ ts, t - t0 < Dedup.message_ttl τ) →
      (Dedup.runProcess h ([] : Dedup.Cache τ) (t0 :: ts)).2 = 1) := by
  refine ⟨?_, ?_, ?_, ?_⟩
  · intro now c h
    cases hl : Dedup.lookupD c h with
    | none => simp [Dedup.is_duplicate_message, hl]
    | some ts =>
      by_cases hlt : now - ts < Dedup.message_ttl τ <;>
        simp [Dedup.is_duplicate_message, hl, hlt]
  · intro now c h ts hl hlt
    simp [Dedup.is_duplicate_message, hl, hlt]
  · intro now c h hd
    have hc := is_dup_true_cache_unchanged now c h hd
    simp [Dedup.processMsg, hd, hc]
  · intro h t0 ts hts
    have h1 : Dedup.processMsg t0 ([] : Dedup.Cache τ) h = ([(h, t0)], true, false) := by
      simp [Dedup.processMsg, Dedup.is_duplicate_message, Dedup.lookupD,
        add_recent_first]
    simp only [Dedup.runProcess, h1]
    rw [runProcess_dup_tail h t0 ts hts]
    simp

theorem c2_witness :
    Dedup.is_duplicate_message (400 : ℤ) [("m", 0)] ("m") =
      ((Dedup.is_duplicate_message (400 : ℤ) [("m", 0)] ("m")).1,
        Dedup.eraseD [("m", (0 : ℤ))] ("m")) ∧
    Dedup.processMsg (1 : ℤ) [("m", 0)] ("m") = ([("m", 0)], false, true) ∧
    (Dedup.runProcess ("m") ([] : Dedup.Cache ℤ) [0, 1, 2]).2 = 1 := by
  refine ⟨?_, ?_, ?_⟩
  · have h2 := c2_dedup_exactly_once.2.1 (400 : ℤ) [("m", 0)] ("m") 0
      (by decide) (by decide)
    exact Prod.ext rfl h2
  · exact c2_dedup_exactly_once.2.2.1 (1 : ℤ) [("m", 0)] ("m") (by decide)
  · exact c2_dedup_exactly_once.2.2.2 ("m") (0 : ℤ) [1, 2] (by decide)

theorem c9_witness :
    Runtime.last_heartbeat_after true 0 3 = 0 ∧
      Runtime.adapter_health_check true false
        (some (Runtime.last_heartbeat_after false 0 2)) (5 / 2) = true :=
  ⟨c9_heartbeat_cadence.1 0 3,
    c9_heartbeat_cadence.2 0 (5 / 2) 2 (by norm_num) (by norm_num)⟩

section EvictionLemmas

open Dedup

variable {τ : Type} [LinearOrderedCommRing τ]

omit [LinearOrderedCommRing τ] in
/-- Dict assignment makes the digest's timestamp the current one. -/
theorem lookupD_insertD (c : Cache τ) (h : String) (v : τ) :
    lookupD (insertD c h v) h = some v := by
  induction c with
  | nil => simp [insertD, lookupD]
  | cons p rest ih =>
    obtain ⟨k1, v1⟩ := p
    by_cases hk : k1 = h
    · simp [insertD, hk, lookupD]
    · simp [insertD, hk, lookupD, ih]

theorem mem_insertByTime (x z : String × τ) (l : Cache τ) :
    z ∈ insertByTime x l ↔ z = x ∨ z ∈ l := by
  induction l with
  | nil => simp [insertByTime]
  | cons y ys ih =>
    by_cases hc : y.2 ≤ x.2
    · simp [insertByTime, hc]
    · simp [insertByTime, hc, ih]
      tauto

theorem mem_sortByTimeDesc (z : String × τ) (l : Cache τ) :
    z ∈ sortByTimeDesc l ↔ z ∈ l := by
  induction l with
  | nil => simp [sortByTimeDesc]
  | cons y ys ih =>
    simp [sortByTimeDesc, mem_insertByTime, ih]

theorem length_insertByTime (x : String × τ) (l : Cache τ) :
    (insertByTime x l).length = l.length + 1 := by
  induction l with
  | nil => simp [insertByTime]
  | cons y ys ih =>
    by_cases hc : y.2 ≤ x.2
    · simp [insertByTime, hc]
    · simp [insertByTime, hc, ih]

theorem length_sortByTimeDesc (l : Cache τ) :
    (sortByTimeDesc l).length = l.length := by
  induction l with
  | nil => rfl
  | cons y ys ih => simp [sortByTimeDesc, length_insertByTime, ih]

theorem pairwise_insertByTime {x : String × τ} {l : Cache τ}
    (hl : List.Pairwise (fun a b : String × τ => b.2 ≤ a.2) l) :
    List.Pairwise (fun a b : String × τ => b.2 ≤ a.2) (insertByTime x l) := by
  induction l with
  | nil => simp [insertByTime]
  | cons y ys ih =>
    rw [List.pairwise_cons] at hl
    by_cases hc : y.2 ≤ x.2
    · rw [insertByTime, if_pos hc, List.pairwise_cons]
      refine ⟨?_, List.pairwise_cons.mpr hl⟩
      intro z hz
      rcases List.mem_cons.mp hz with rfl | hz2
      · exact hc
      · exact le_trans (hl.1 z hz2) hc
    · rw [insertByTime, if_neg hc, List.pairwise_cons]
      refine ⟨?_, ih hl.2⟩
      intro z hz
      rcases (mem_insertByTime x z ys).mp hz with rfl | hz2
      · exact le_of_lt (lt_of_not_le hc)
      · exact hl.1 z hz2

/-- The eviction sort really is sorted: most recent timestamps first. -/
theorem sortByTimeDesc_pairwise (l : Cache τ) :
    List.Pairwise (fun a b : String × τ => b.2 ≤ a.2) (sortByTimeDesc l) := by
  induction l with
  | nil => simp [sortByTimeDesc]
  | cons y ys ih => exact pairwise_insertByTime ih

theorem mem_sweep {now : τ} {c : Cache τ} {p : String × τ}
    (hp : p ∈ sweep now c) : ¬ (now - p.2 > message_ttl τ) := by
  have := (List.mem_filter.mp hp).2
  simpa using this

end EvictionLemmas

set_option maxRecDepth 100000 in
/-- Claim C6: record(digest) inserts the digest with the current timestamp;
the result of record holds no expired entry; if after the sweep the cache
still exceeds the capacity bound, record evicts down to half capacity
keeping the entries with the most recent timestamps (every kept entry's
timestamp is at least every evicted one's); and recording
max_recent_messages + 1 distinct fingerprints at times 0..100 leaves
exactly the max_recent_messages/2 most recently inserted entries. -/
theorem c6_record_and_eviction {τ : Type} [LinearOrderedCommRing τ] :
    (∀ (now : τ) (c : Dedup.Cache τ) (h : String),
      Dedup.lookupD (Dedup.insertD c h now) h = some now) ∧
    (∀ (now : τ) (c : Dedup.Cache τ) (h : String),
      ∀ p ∈ Dedup.add_recent_message now c h,
        ¬ (now - p.2 > Dedup.message_ttl τ)) ∧
    (∀ (now : τ) (c : Dedup.Cache τ) (h : String),
      (Dedup.sweep now (Dedup.insertD c h now)).length >
          Dedup.max_recent_messages →
      Dedup.add_recent_message now c h =
          (Dedup.sortByTimeDesc (Dedup.sweep now (Dedup.insertD c h now))).take
            (Dedup.max_recent_messages / 2) ∧
        (Dedup.add_recent_message now c h).length =
          Dedup.max_recent_messages / 2 ∧
        (∀ p ∈ Dedup.add_recent_message now c h,
          ∀ q ∈ (Dedup.sortByTimeDesc
              (Dedup.sweep now (Dedup.insertD c h now))).drop
            (Dedup.max_recent_messages / 2), q.2 ≤ p.2)) ∧
    Dedup.evictionScenario =
      ((List.range 101).drop 51).reverse.map (fun i => (toString i, (i : ℤ))) := by
  refine ⟨fun now c h => lookupD_insertD c h now, ?_, ?_, ?_⟩
  · intro now c h p hp
    simp only [Dedup.add_recent_message] at hp
    by_cases hb : (Dedup.sweep now (Dedup.insertD c h now)).length >
        Dedup.max_recent_messages
    · rw [if_pos hb] at hp
      exact mem_sweep ((mem_sortByTimeDesc p _).mp (List.take_subset _ _ hp))
    · rw [if_neg hb] at hp
      exact mem_sweep hp
  · intro now c h hb
    have heq : Dedup.add_recent_message now c h =
        (Dedup.sortByTimeDesc (Dedup.sweep now (Dedup.insertD c h now))).take
          (Dedup.max_recent_messages / 2) := by
      simp only [Dedup.add_recent_message]
      rw [if_pos hb]
    refine ⟨heq, ?_, ?_⟩
    · rw [heq, List.length_take, length_sortByTimeDesc]
      have : Dedup.max_recent_messages / 2 ≤
          (Dedup.sweep now (Dedup.insertD c h now)).length := by
        simp [Dedup.max_recent_messages] at hb ⊢
        omega
      omega
    · intro p hp q hq
      have hpair := sortByTimeDesc_pairwise
        (Dedup.sweep now (Dedup.insertD c h now))
      rw [← List.take_append_drop (Dedup.max_recent_messages / 2)
        (Dedup.sortByTimeDesc (Dedup.sweep now (Dedup.insertD c h now)))] at hpair
      have h3 := (List.pairwise_append.mp hpair).2.2
      rw [heq] at hp
      exact h3 p hp q hq
  · decide

theorem c6_witness :
    ¬ ((0 : ℤ) - 0 > Dedup.message_ttl ℤ) ∧
    (Dedup.add_recent_message (100 : ℤ)
        ((List.range 101).map (fun i => (toString i, (i : ℤ)))) ("x")).length =
      Dedup.max_recent_messages / 2 :=
  ⟨c6_record_and_eviction.2.1 (0 : ℤ) [] ("m") (("m"), (0 : ℤ)) (by decide),
    (c6_record_and_eviction.2.2.1 (100 : ℤ)
      ((List.range 101).map (fun i => (toString i, (i : ℤ)))) ("x")
      (by decide)).2.1⟩

section LifecycleListLemmas

open Lifecycle

/-- Splitting an append at an occurrence of `b` that cannot lie in the left
part: the split point is inside the right part. -/
theorem append_decomp_left {α : Type} {l1 l2 pre post : List α} {b : α}
    (heq : l1 ++ l2 = pre ++ b :: post) (hb : b ∉ l1) :
    ∃ pre2, pre = l1 ++ pre2 ∧ l2 = pre2 ++ b :: post := by
  induction l1 generalizing pre with
  | nil => exact ⟨pre, by simp, by simpa using heq⟩
  | cons x xs ih =>
    cases pre with
    | nil =>
      simp only [List.nil_append] at heq
      obtain ⟨rfl, -⟩ := List.cons.inj heq
      exact absurd (List.mem_cons_self _ _) hb
    | cons y ys =>
      simp only [List.cons_append] at heq
      obtain ⟨rfl, heq2⟩ := List.cons.inj heq
      obtain ⟨pre2, hpre, hl2⟩ := ih heq2 (fun hm => hb (List.mem_cons_of_mem _ hm))
      exact ⟨pre2, by rw [hpre]; rfl, hl2⟩

/-- Splitting an append at an occurrence of `b` that cannot lie in the right
part: the split point is inside the left part. -/
theorem append_decomp_right {α : Type} {l1 l2 pre post : List α} {b : α}
    (heq : l1 ++ l2 = pre ++ b :: post) (hb : b ∉ l2) :
    ∃ post1, l1 = pre ++ b :: post1 ∧ post = post1 ++ l2 := by
  induction l1 generalizing pre with
  | nil =>
    simp only [List.nil_append] at heq
    exact absurd (heq ▸ List.mem_append_right pre (List.mem_cons_self b post)) hb
  | cons x xs ih =>
    cases pre with
    | nil =>
      simp only [List.nil_append] at heq
      obtain ⟨rfl, heq2⟩ := List.cons.inj heq
      exact ⟨xs, rfl, heq2.symm⟩
    | cons y ys =>
      simp only [List.cons_append] at heq
      obtain ⟨rfl, heq2⟩ := List.cons.inj heq
      obtain ⟨post1, hl, hp⟩ := ih heq2
      exact ⟨post1, by rw [hl]; rfl, hp⟩

theorem precedes_of_not_mem {a b : Ev} {tr : List Ev} (hb : b ∉ tr) :
    Precedes a b tr := by
  intro pre post heq
  exact absurd (heq ▸ List.mem_append_right pre (List.mem_cons_self b post)) hb

theorem precedes_append_left_mem {a b : Ev} {tr1 tr2 : List Ev}
    (ha : a ∈ tr1) (hb : b ∈ tr1 → False) : Precedes a b (tr1 ++ tr2) := by
  intro pre post heq
  obtain ⟨pre2, hpre, -⟩ := append_decomp_left heq hb
  exact hpre ▸ List.mem_append_left pre2 ha

theorem precedes_append_lift {a b : Ev} {tr1 tr2 : List Ev}
    (hp : Precedes a b tr2) (hb : b ∉ tr1) : Precedes a b (tr1 ++ tr2) := by
  intro pre post heq
  obtain ⟨pre2, hpre, hl2⟩ := append_decomp_left heq hb
  exact hpre ▸ List.mem_append_right tr1 (hp pre2 post hl2)

theorem precedes_extend_right {a b : Ev} {tr1 tr2 : List Ev}
    (hp : Precedes a b tr1) (hb : b ∉ tr2) : Precedes a b (tr1 ++ tr2) := by
  intro pre post heq
  obtain ⟨post1, hl1, -⟩ := append_decomp_right heq hb
  exact hp pre post1 hl1

end LifecycleListLemmas

section LifecycleStateLemmas

open Lifecycle

theorem runHandlers_shape (s : Stage) (outs : List Bool) :
    ∀ e ∈ (runHandlers s outs).2, ∃ b, e = Ev.handlerRun s b := by
  induction outs with
  | nil => simp [runHandlers]
  | cons b bs ih =>
    by_cases hb : b = true
    · subst hb
      simp only [runHandlers, if_true]
      intro e he
      rcases List.mem_cons.mp he with rfl | he2
      · exact ⟨true, rfl⟩
      · exact ih e he2
    · simp only [Bool.not_eq_true] at hb
      subst hb
      simp [runHandlers]

theorem runHandlers_success_all (s : Stage) (outs : List Bool)
    (hs : (runHandlers s outs).1 = true) :
    ∀ e ∈ (runHandlers s outs).2, e = Ev.handlerRun s true := by
  induction outs with
  | nil => simp [runHandlers]
  | cons b bs ih =>
    by_cases hb : b = true
    · subst hb
      simp only [runHandlers, if_true] at hs ⊢
      intro e he
      rcases List.mem_cons.mp he with rfl | he2
      · rfl
      · exact ih hs e he2
    · simp only [Bool.not_eq_true] at hb
      subst hb
      simp [runHandlers] at hs

theorem runHandlers_success_mem (s : Stage) (outs : List Bool)
    (hs : (runHandlers s outs).1 = true) (hne : outs ≠ []) :
    Ev.handlerRun s true ∈ (runHandlers s outs).2 := by
  cases outs with
  | nil => exact absurd rfl hne
  | cons b bs =>
    by_cases hb : b = true
    · subst hb
      simp [runHandlers]
    · simp only [Bool.not_eq_true] at hb
      subst hb
      simp [runHandlers] at hs

theorem runHandlers_fail_ends (s : Stage) (outs : List Bool)
    (hs : (runHandlers s outs).1 = false) :
    ∃ pre, (runHandlers s outs).2 = pre ++ [Ev.handlerRun s false] := by
  induction outs with
  | nil => simp [runHandlers] at hs
  | cons b bs ih =>
    by_cases hb : b = true
    · subst hb
      simp only [runHandlers, if_true] at hs ⊢
      obtain ⟨pre, hpre⟩ := ih hs
      exact ⟨Ev.handlerRun s true :: pre, by rw [hpre]; rfl⟩
    · simp only [Bool.not_eq_true] at hb
      subst hb
      exact ⟨[], rfl⟩

theorem setStatus_keys (m : List (String × CompRec)) (n : String) (stt : CStatus) :
    (setStatus m n stt).map Prod.fst = m.map Prod.fst := by
  induction m with
  | nil => rfl
  | cons p rest ih =>
    by_cases hp : p.1 = n <;> simp [setStatus, hp] <;>
      simpa [setStatus] using ih

theorem setStatus_cons (k : String) (v : CompRec)
    (rest : List (String × CompRec)) (n : String) (stt : CStatus) :
    setStatus ((k, v) :: rest) n stt =
      (if k = n then (k, (⟨v.stage, stt⟩ : CompRec)) else (k, v)) ::
        setStatus rest n stt := rfl

theorem lookupC_cons (k : String) (v : CompRec)
    (rest : List (String × CompRec)) (n : String) :
    lookupC ((k, v) :: rest) n =
      if k = n then some v else lookupC rest n := rfl

theorem lookupC_setStatus_ne {m : List (String × CompRec)} {n n2 : String}
    {stt : CStatus} (hne : n ≠ n2) :
    lookupC (setStatus m n2 stt) n = lookupC m n := by
  induction m with
  | nil => rfl
  | cons p rest ih =>
    obtain ⟨k, v⟩ := p
    rw [setStatus_cons]
    by_cases hk : k = n2
    · have hkn : ¬ (k = n) := fun hc => hne (hc ▸ hk)
      rw [if_pos hk, lookupC_cons, lookupC_cons, if_neg hkn, if_neg hkn]
      exact ih
    · rw [if_neg hk, lookupC_cons, lookupC_cons]
      by_cases hkn : k = n
      · rw [if_pos hkn, if_pos hkn]
      · rw [if_neg hkn, if_neg hkn]
        exact ih

theorem lookupC_setStatus_eq (m : List (String × CompRec)) (n : String)
    (stt : CStatus) :
    lookupC (setStatus m n stt) n =
      (lookupC m n).map (fun rc => ⟨rc.stage, stt⟩) := by
  induction m with
  | nil => rfl
  | cons p rest ih =>
    obtain ⟨k, v⟩ := p
    rw [setStatus_cons]
    by_cases hk : k = n
    · rw [if_pos hk, lookupC_cons, lookupC_cons, if_pos hk, if_pos hk]
      rfl
    · rw [if_neg hk, lookupC_cons, lookupC_cons, if_neg hk, if_neg hk]
      exact ih

theorem lookupC_mem {m : List (String × CompRec)} {n : String} {rc : CompRec}
    (h : lookupC m n = some rc) : (n, rc) ∈ m := by
  induction m with
  | nil => simp [lookupC] at h
  | cons p rest ih =>
    by_cases hp : p.1 = n
    · simp only [lookupC, hp, if_true] at h
      obtain ⟨k, v⟩ := p
      simp at hp
      simp only [Option.some.injEq] at h
      simp [hp, h]
    · simp only [lookupC, hp, if_false] at h
      exact List.mem_cons_of_mem _ (ih h)

theorem mem_lookupC {m : List (String × CompRec)} {n : String} {rc : CompRec}
    (hnd : (m.map Prod.fst).Nodup) (hm : (n, rc) ∈ m) :
    lookupC m n = some rc := by
  induction m with
  | nil => simp at hm
  | cons p rest ih =>
    simp only [List.map_cons, List.nodup_cons] at hnd
    rcases List.mem_cons.mp hm with rfl | hm2
    · simp [lookupC]
    · by_cases hp : p.1 = n
      · exfalso
        exact hnd.1 (hp ▸ (List.mem_map.mpr ⟨(n, rc), hm2, rfl⟩))
      · simp only [lookupC, hp, if_false]
        exact ih hnd.2 hm2

theorem key_mem_lookupC {m : List (String × CompRec)} {n : String}
    (h : n ∈ m.map Prod.fst) : ∃ rc, lookupC m n = some rc := by
  induction m with
  | nil => simp at h
  | cons p rest ih =>
    by_cases hp : p.1 = n
    · exact ⟨p.2, by simp [lookupC, hp]⟩
    · simp only [List.map_cons, List.mem_cons] at h
      rcases h with h1 | h2
      · exact absurd h1.symm hp
      · simpa [lookupC, hp] using ih h2

end LifecycleStateLemmas

section LifecycleRegLemmas

open Lifecycle

theorem registerOne_cons (k : String) (v : CompRec)
    (rest : List (String × CompRec)) (n : String) (s : Stage) :
    registerOne ((k, v) :: rest) (n, s) =
      if k = n then (k, (⟨s, .pending⟩ : CompRec)) :: rest
      else (k, v) :: registerOne rest (n, s) := rfl

theorem registerOne_mem_keys (m : List (String × CompRec)) (n : String)
    (s : Stage) (k : String) :
    k ∈ (registerOne m (n, s)).map Prod.fst ↔ k = n ∨ k ∈ m.map Prod.fst := by
  induction m with
  | nil => simp [registerOne]
  | cons p rest ih =>
    obtain ⟨k1, v1⟩ := p
    rw [registerOne_cons]
    by_cases hk : k1 = n
    · subst hk
      rw [if_pos rfl]
      simp only [List.map_cons, List.mem_cons]
      tauto
    · rw [if_neg hk]
      simp only [List.map_cons, List.mem_cons, ih]
      tauto

theorem registerOne_nodup {m : List (String × CompRec)} {q : String × Stage}
    (hnd : (m.map Prod.fst).Nodup) :
    ((registerOne m q).map Prod.fst).Nodup := by
  obtain ⟨n, s⟩ := q
  induction m with
  | nil => simp [registerOne]
  | cons p rest ih =>
    obtain ⟨k1, v1⟩ := p
    simp only [List.map_cons, List.nodup_cons] at hnd
    rw [registerOne_cons]
    by_cases hk : k1 = n
    · rw [if_pos hk]
      simp only [List.map_cons, List.nodup_cons]
      exact hnd
    · rw [if_neg hk]
      simp only [List.map_cons, List.nodup_cons]
      refine ⟨?_, ih hnd.2⟩
      intro hmem
      rcases (registerOne_mem_keys rest n s k1).mp hmem with h1 | h2
      · exact hk h1
      · exact hnd.1 h2

theorem foldRegister_nodup (regs : List (String × Stage)) :
    ∀ m : List (String × CompRec), (m.map Prod.fst).Nodup →
      ((regs.foldl registerOne m).map Prod.fst).Nodup := by
  induction regs with
  | nil => intro m hm; simpa using hm
  | cons q qs ih =>
    intro m hm
    simpa [List.foldl_cons] using ih (registerOne m q) (registerOne_nodup hm)

/-- A freshly registered manager has unique component names. -/
theorem mkInitial_nodup (regs : List (String × Stage)) :
    ((mkInitial regs).comps.map Prod.fst).Nodup :=
  foldRegister_nodup regs [] (by simp)

theorem registerOne_pending {m : List (String × CompRec)} {q : String × Stage}
    (hp : ∀ p ∈ m, p.2.status = CStatus.pending) :
    ∀ p ∈ registerOne m q, p.2.status = CStatus.pending := by
  obtain ⟨n, s⟩ := q
  induction m with
  | nil => simp [registerOne]
  | cons hd rest ih =>
    obtain ⟨k1, v1⟩ := hd
    rw [registerOne_cons]
    by_cases hk : k1 = n
    · rw [if_pos hk]
      intro p hpm
      rcases List.mem_cons.mp hpm with rfl | h2
      · rfl
      · exact hp p (List.mem_cons_of_mem _ h2)
    · rw [if_neg hk]
      intro p hpm
      rcases List.mem_cons.mp hpm with rfl | h2
      · exact hp _ (List.mem_cons_self _ _)
      · exact ih (fun r hr => hp r (List.mem_cons_of_mem _ hr)) p h2

theorem foldRegister_pending (regs : List (String × Stage)) :
    ∀ m : List (String × CompRec),
      (∀ p ∈ m, p.2.status = CStatus.pending) →
      ∀ p ∈ regs.foldl registerOne m, p.2.status = CStatus.pending := by
  induction regs with
  | nil => intro m hm; simpa using hm
  | cons q qs ih =>
    intro m hm
    simpa [List.foldl_cons] using ih (registerOne m q) (registerOne_pending hm)

/-- All components of a freshly registered manager are pending. -/
theorem mkInitial_pending (regs : List (String × Stage)) :
    ∀ p ∈ (mkInitial regs).comps, p.2.status = CStatus.pending :=
  foldRegister_pending regs [] (by simp)

end LifecycleRegLemmas

section LifecycleInitCompsLemmas

open Lifecycle

theorem initComps_keys (B : Behavior) (names : List String) :
    ∀ m : List (String × CompRec),
      (initComps B names m).2.1.map Prod.fst = m.map Prod.fst := by
  induction names with
  | nil => intro m; rfl
  | cons n rest ih =>
    intro m
    simp only [initComps]
    by_cases hn : B.initOk n = true
    · rw [if_pos hn]
      simp only []
      rw [ih, setStatus_keys, setStatus_keys]
    · rw [if_neg hn]
      simp only []
      rw [setStatus_keys, setStatus_keys]

theorem initComps_trace_shape (B : Behavior) (names : List String) :
    ∀ m : List (String × CompRec),
      ∀ e ∈ (initComps B names m).2.2,
        ∃ n, n ∈ names ∧
          (e = Ev.compStart n ∨ ∃ b, e = Ev.compDone n b) := by
  induction names with
  | nil => intro m e he; simp [initComps] at he
  | cons n rest ih =>
    intro m e he
    simp only [initComps] at he
    by_cases hn : B.initOk n = true
    · rw [if_pos hn] at he
      simp only [List.mem_cons] at he
      rcases he with rfl | rfl | he3
      · exact ⟨n, List.mem_cons_self _ _, Or.inl rfl⟩
      · exact ⟨n, List.mem_cons_self _ _, Or.inr ⟨true, rfl⟩⟩
      · obtain ⟨n2, hn2, hsh⟩ := ih _ e he3
        exact ⟨n2, List.mem_cons_of_mem _ hn2, hsh⟩
    · rw [if_neg hn] at he
      simp only [List.mem_cons] at he
      rcases he with rfl | rfl | he3
      · exact ⟨n, List.mem_cons_self _ _, Or.inl rfl⟩
      · exact ⟨n, List.mem_cons_self _ _, Or.inr ⟨false, rfl⟩⟩
      · simp at he3

theorem initComps_success_done (B : Behavior) (names : List String) :
    ∀ m : List (String × CompRec), (initComps B names m).1 = true →
      ∀ n ∈ names, Ev.compDone n true ∈ (initComps B names m).2.2 := by
  induction names with
  | nil => intro m _ n hn; simp at hn
  | cons n1 rest ih =>
    intro m hs n hn
    simp only [initComps] at hs ⊢
    by_cases h1 : B.initOk n1 = true
    · rw [if_pos h1] at hs ⊢
      rcases List.mem_cons.mp hn with rfl | hn2
      · simp
      · simp only [List.mem_cons]
        exact Or.inr (Or.inr (ih _ hs n hn2))
    · rw [if_neg h1] at hs
      simp at hs

theorem initComps_lookup_not_mem (B : Behavior) (names : List String) :
    ∀ (m : List (String × CompRec)) (n : String), n ∉ names →
      lookupC (initComps B names m).2.1 n = lookupC m n := by
  induction names with
  | nil => intro m n _; rfl
  | cons n1 rest ih =>
    intro m n hn
    have hne : n ≠ n1 := fun hc => hn (hc ▸ List.mem_cons_self _ _)
    have hnr : n ∉ rest := fun hc => hn (List.mem_cons_of_mem _ hc)
    simp only [initComps]
    by_cases h1 : B.initOk n1 = true
    · rw [if_pos h1]
      simp only []
      rw [ih _ n hnr, lookupC_setStatus_ne hne, lookupC_setStatus_ne hne]
    · rw [if_neg h1]
      simp only []
      rw [lookupC_setStatus_ne hne, lookupC_setStatus_ne hne]

theorem initComps_fail_ends (B : Behavior) (names : List String) :
    ∀ m : List (String × CompRec), (initComps B names m).1 = false →
      ∃ pre n, (initComps B names m).2.2 = pre ++ [Ev.compDone n false] := by
  induction names with
  | nil => intro m hs; simp [initComps] at hs
  | cons n1 rest ih =>
    intro m hs
    simp only [initComps] at hs ⊢
    by_cases h1 : B.initOk n1 = true
    · rw [if_pos h1] at hs ⊢
      obtain ⟨pre, n, hpre⟩ := ih _ hs
      refine ⟨Ev.compStart n1 :: Ev.compDone n1 true :: pre, n, ?_⟩
      simp [hpre]
    · rw [if_neg h1]
      exact ⟨[Ev.compStart n1], n1, rfl⟩

theorem initComps_success_ok (B : Behavior) (names : List String) :
    ∀ m : List (String × CompRec), (initComps B names m).1 = true →
      ∀ e ∈ (initComps B names m).2.2, isFailEv e = false := by
  induction names with
  | nil => intro m _ e he; simp [initComps] at he
  | cons n1 rest ih =>
    intro m hs e he
    simp only [initComps] at hs he
    by_cases h1 : B.initOk n1 = true
    · rw [if_pos h1] at hs he
      simp only [List.mem_cons] at he
      rcases he with rfl | rfl | he3
      · rfl
      · rfl
      · exact ih _ hs e he3
    · rw [if_neg h1] at hs
      simp at hs

theorem initComps_lookup_some (B : Behavior) (names : List String) :
    ∀ (m : List (String × CompRec)) (n : String) (rc : CompRec),
      lookupC m n = some rc →
      ∃ rc', lookupC (initComps B names m).2.1 n = some rc' ∧
        rc'.stage = rc.stage := by
  induction names with
  | nil => intro m n rc h; exact ⟨rc, h, rfl⟩
  | cons n1 rest ih =>
    intro m n rc h
    have hstep : ∀ stt1 stt2, ∃ rc2,
        lookupC (setStatus (setStatus m n1 stt1) n1 stt2) n = some rc2 ∧
          rc2.stage = rc.stage := by
      intro stt1 stt2
      by_cases hne : n = n1
      · subst hne
        rw [lookupC_setStatus_eq, lookupC_setStatus_eq, h]
        exact ⟨⟨rc.stage, stt2⟩, rfl, rfl⟩
      · rw [lookupC_setStatus_ne hne, lookupC_setStatus_ne hne]
        exact ⟨rc, h, rfl⟩
    simp only [initComps]
    by_cases h1 : B.initOk n1 = true
    · rw [if_pos h1]
      simp only []
      obtain ⟨rc2, hrc2, hst⟩ := hstep CStatus.running CStatus.completed
      obtain ⟨rc', hrc', hst'⟩ := ih _ n rc2 hrc2
      exact ⟨rc', hrc', hst' ▸ hst⟩
    · rw [if_neg h1]
      simp only []
      obtain ⟨rc2, hrc2, hst⟩ := hstep CStatus.running CStatus.failed
      exact ⟨rc2, hrc2, hst⟩

end LifecycleInitCompsLemmas

section LifecycleExecStageLemmas

open Lifecycle

theorem stage_names_mem (m : List (String × CompRec)) (s : Stage) (n : String) :
    n ∈ (m.filter
        (fun p => p.2.stage = s ∧ p.2.status = CStatus.pending)).map Prod.fst ↔
      ∃ rc, (n, rc) ∈ m ∧ rc.stage = s ∧ rc.status = CStatus.pending := by
  constructor
  · intro h
    obtain ⟨p, hp, hp1⟩ := List.mem_map.mp h
    have hf := List.mem_filter.mp hp
    have hprop := of_decide_eq_true hf.2
    exact ⟨p.2, by rw [← hp1]; exact hf.1, hprop.1, hprop.2⟩
  · rintro ⟨rc, hm, hs, hp⟩
    exact List.mem_map.mpr ⟨(n, rc), List.mem_filter.mpr ⟨hm,
      decide_eq_true (by exact ⟨hs, hp⟩)⟩, rfl⟩

theorem execStage_keys (B : Behavior) (st : LCState) (s : Stage) :
    (execStage B st s).2.1.comps.map Prod.fst = st.comps.map Prod.fst := by
  simp only [execStage]
  by_cases hh : (runHandlers s (B.handlerOut s)).1 = true
  · rw [if_pos hh]
    exact initComps_keys B _ st.comps
  · rw [if_neg hh]

theorem execStage_flags (B : Behavior) (st : LCState) (s : Stage) :
    (execStage B st s).2.1.is_initialized = st.is_initialized ∧
      (execStage B st s).2.1.is_shutting_down = st.is_shutting_down := by
  simp only [execStage]
  by_cases hh : (runHandlers s (B.handlerOut s)).1 = true
  · rw [if_pos hh]; exact ⟨rfl, rfl⟩
  · rw [if_neg hh]; exact ⟨rfl, rfl⟩

theorem execStage_trace_shape (B : Behavior) (st : LCState) (s : Stage)
    (hKU : (st.comps.map Prod.fst).Nodup) :
    ∀ e ∈ (execStage B st s).2.2,
      (∃ b, e = Ev.handlerRun s b) ∨
        ∃ n rc, lookupC st.comps n = some rc ∧ rc.stage = s ∧
          rc.status = CStatus.pending ∧
          (e = Ev.compStart n ∨ ∃ b, e = Ev.compDone n b) := by
  intro e he
  simp only [execStage] at he
  by_cases hh : (runHandlers s (B.handlerOut s)).1 = true
  · rw [if_pos hh] at he
    rcases List.mem_append.mp he with h1 | h2
    · exact Or.inl (runHandlers_shape s _ e h1)
    · obtain ⟨n, hn, hsh⟩ := initComps_trace_shape B _ st.comps e h2
      obtain ⟨rc, hm, hs2, hp⟩ := (stage_names_mem st.comps s n).mp hn
      exact Or.inr ⟨n, rc, mem_lookupC hKU hm, hs2, hp, hsh⟩
  · rw [if_neg hh] at he
    exact Or.inl (runHandlers_shape s _ e he)

theorem execStage_success_done (B : Behavior) (st : LCState) (s : Stage)
    (hs : (execStage B st s).1 = true) :
    ∀ n rc, lookupC st.comps n = some rc → rc.stage = s →
      rc.status = CStatus.pending →
      Ev.compDone n true ∈ (execStage B st s).2.2 := by
  intro n rc hlk hst hpend
  simp only [execStage] at hs ⊢
  by_cases hh : (runHandlers s (B.handlerOut s)).1 = true
  · rw [if_pos hh] at hs ⊢
    have hn : n ∈ (st.comps.filter
        (fun p => p.2.stage = s ∧ p.2.status = CStatus.pending)).map Prod.fst :=
      (stage_names_mem st.comps s n).mpr ⟨rc, lookupC_mem hlk, hst, hpend⟩
    exact List.mem_append_right _ (initComps_success_done B _ st.comps hs n hn)
  · rw [if_neg hh] at hs
    simp at hs

theorem execStage_lookup_preserved (B : Behavior) (st : LCState) (s : Stage)
    (hKU : (st.comps.map Prod.fst).Nodup)
    {n : String} {rc : CompRec} (hlk : lookupC st.comps n = some rc)
    (hne : rc.stage ≠ s) :
    lookupC (execStage B st s).2.1.comps n = some rc := by
  simp only [execStage]
  by_cases hh : (runHandlers s (B.handlerOut s)).1 = true
  · rw [if_pos hh]
    simp only []
    have hnm : n ∉ (st.comps.filter
        (fun p => p.2.stage = s ∧ p.2.status = CStatus.pending)).map Prod.fst := by
      intro hmem
      obtain ⟨rc', hm', hs', _⟩ := (stage_names_mem st.comps s n).mp hmem
      have := mem_lookupC hKU hm'
      rw [hlk] at this
      exact hne (by rw [Option.some.injEq] at this; rw [this]; exact hs')
    rw [initComps_lookup_not_mem B _ st.comps n hnm]
    exact hlk
  · rw [if_neg hh]
    exact hlk

theorem execStage_lookup_some (B : Behavior) (st : LCState) (s : Stage)
    {n : String} {rc : CompRec} (hlk : lookupC st.comps n = some rc) :
    ∃ rc', lookupC (execStage B st s).2.1.comps n = some rc' ∧
      rc'.stage = rc.stage := by
  simp only [execStage]
  by_cases hh : (runHandlers s (B.handlerOut s)).1 = true
  · rw [if_pos hh]
    simp only []
    exact initComps_lookup_some B _ st.comps n rc hlk
  · rw [if_neg hh]
    exact ⟨rc, hlk, rfl⟩

theorem execStage_success_ok (B : Behavior) (st : LCState) (s : Stage)
    (hs : (execStage B st s).1 = true) :
    ∀ e ∈ (execStage B st s).2.2, isFailEv e = false := by
  intro e he
  simp only [execStage] at hs he
  by_cases hh : (runHandlers s (B.handlerOut s)).1 = true
  · rw [if_pos hh] at hs he
    rcases List.mem_append.mp he with h1 | h2
    · rw [runHandlers_success_all s _ hh e h1]; rfl
    · exact initComps_success_ok B _ st.comps hs e h2
  · rw [if_neg hh] at hs
    simp at hs

theorem execStage_fail_ends (B : Behavior) (st : LCState) (s : Stage)
    (hs : (execStage B st s).1 = false) :
    ∃ pre e, (execStage B st s).2.2 = pre ++ [e] ∧ isFailEv e = true := by
  simp only [execStage] at hs ⊢
  by_cases hh : (runHandlers s (B.handlerOut s)).1 = true
  · rw [if_pos hh] at hs ⊢
    obtain ⟨pre, n, hpre⟩ := initComps_fail_ends B _ st.comps hs
    refine ⟨(runHandlers s (B.handlerOut s)).2 ++ pre, Ev.compDone n false, ?_, rfl⟩
    rw [hpre, List.append_assoc]
  · rw [if_neg hh]
    have hf : (runHandlers s (B.handlerOut s)).1 = false := by
      simpa using hh
    obtain ⟨pre, hpre⟩ := runHandlers_fail_ends s _ hf
    exact ⟨pre, Ev.handlerRun s false, hpre, rfl⟩

theorem execStage_start_not_mem (B : Behavior) (st : LCState) (s : Stage)
    (hKU : (st.comps.map Prod.fst).Nodup)
    {n : String} {rc : CompRec} (hlk : lookupC st.comps n = some rc)
    (hne : rc.stage ≠ s) :
    Ev.compStart n ∉ (execStage B st s).2.2 := by
  intro hmem
  rcases execStage_trace_shape B st s hKU _ hmem with ⟨b, hb⟩ | ⟨n2, rc2, hlk2, hs2, _, hor⟩
  · exact absurd hb (by simp)
  · rcases hor with he | ⟨b, hb⟩
    · have hn2 : n = n2 := by
        injection he
      subst hn2
      rw [hlk] at hlk2
      rw [Option.some.injEq] at hlk2
      exact hne (by rw [hlk2]; exact hs2)
    · exact absurd hb (by simp)

theorem execStage_success_trace (B : Behavior) (st : LCState) (s : Stage)
    (hs : (execStage B st s).1 = true) :
    (runHandlers s (B.handlerOut s)).1 = true ∧
      (execStage B st s).2.2 = (runHandlers s (B.handlerOut s)).2 ++
        (initComps B ((st.comps.filter
          (fun p => p.2.stage = s ∧ p.2.status = CStatus.pending)).map Prod.fst)
          st.comps).2.2 := by
  simp only [execStage] at hs ⊢
  by_cases hh : (runHandlers s (B.handlerOut s)).1 = true
  · rw [if_pos hh] at hs ⊢
    exact ⟨hh, rfl⟩
  · rw [if_neg hh] at hs
    simp at hs

end LifecycleExecStageLemmas

section LifecycleRunStagesLemmas

open Lifecycle

theorem runStages_keys (B : Behavior) (stages : List Stage) :
    ∀ st : LCState,
      (runStages B stages st).2.1.comps.map Prod.fst =
        st.comps.map Prod.fst := by
  induction stages with
  | nil => intro st; rfl
  | cons s rest ih =>
    intro st
    simp only [runStages]
    by_cases hr : s = Stage.ready
    · rw [if_pos hr]
      exact ih st
    · rw [if_neg hr]
      by_cases hx : (execStage B st s).1 = true
      · rw [if_pos hx]
        simp only []
        rw [ih _, execStage_keys]
      · rw [if_neg hx]
        exact execStage_keys B st s

theorem runStages_flags (B : Behavior) (stages : List Stage) :
    ∀ st : LCState,
      (runStages B stages st).2.1.is_initialized = st.is_initialized ∧
        (runStages B stages st).2.1.is_shutting_down = st.is_shutting_down := by
  induction stages with
  | nil => intro st; exact ⟨rfl, rfl⟩
  | cons s rest ih =>
    intro st
    simp only [runStages]
    by_cases hr : s = Stage.ready
    · rw [if_pos hr]
      exact ih st
    · rw [if_neg hr]
      by_cases hx : (execStage B st s).1 = true
      · rw [if_pos hx]
        simp only []
        obtain ⟨h1, h2⟩ := ih (execStage B st s).2.1
        obtain ⟨h3, h4⟩ := execStage_flags B st s
        exact ⟨h1.trans h3, h2.trans h4⟩
      · rw [if_neg hx]
        exact execStage_flags B st s

theorem runStages_start_not_mem (B : Behavior) (stages : List Stage) :
    ∀ (st : LCState) (n : String) (rc : CompRec),
      (st.comps.map Prod.fst).Nodup →
      lookupC st.comps n = some rc → rc.stage ∉ stages →
      Ev.compStart n ∉ (runStages B stages st).2.2 := by
  induction stages with
  | nil => intro st n rc _ _ _; simp [runStages]
  | cons s rest ih =>
    intro st n rc hKU hlk hst
    have hne : rc.stage ≠ s := fun hc => hst (hc ▸ List.mem_cons_self _ _)
    have hnr : rc.stage ∉ rest := fun hc => hst (List.mem_cons_of_mem _ hc)
    simp only [runStages]
    by_cases hr : s = Stage.ready
    · rw [if_pos hr]
      exact ih st n rc hKU hlk hnr
    · rw [if_neg hr]
      by_cases hx : (execStage B st s).1 = true
      · rw [if_pos hx]
        simp only []
        intro hmem
        rcases List.mem_append.mp hmem with h1 | h2
        · exact execStage_start_not_mem B st s hKU hlk hne h1
        · have hKU2 : ((execStage B st s).2.1.comps.map Prod.fst).Nodup := by
            rw [execStage_keys]; exact hKU
          have hlk2 := execStage_lookup_preserved B st s hKU hlk hne
          exact ih _ n rc hKU2 hlk2 hnr h2
      · rw [if_neg hx]
        exact execStage_start_not_mem B st s hKU hlk hne

theorem runStages_success_ok (B : Behavior) (stages : List Stage) :
    ∀ st : LCState, (runStages B stages st).1 = true →
      ∀ e ∈ (runStages B stages st).2.2, isFailEv e = false := by
  induction stages with
  | nil => intro st _ e he; simp [runStages] at he
  | cons s rest ih =>
    intro st hs e he
    simp only [runStages] at hs he
    by_cases hr : s = Stage.ready
    · rw [if_pos hr] at hs he
      exact ih st hs e he
    · rw [if_neg hr] at hs he
      by_cases hx : (execStage B st s).1 = true
      · rw [if_pos hx] at hs he
        rcases List.mem_append.mp he with h1 | h2
        · exact execStage_success_ok B st s hx e h1
        · exact ih _ hs e h2
      · rw [if_neg hx] at hs
        simp at hs

theorem runStages_fail_ends (B : Behavior) (stages : List Stage) :
    ∀ st : LCState, (runStages B stages st).1 = false →
      ∃ pre e, (runStages B stages st).2.2 = pre ++ [e] ∧ isFailEv e = true := by
  induction stages with
  | nil => intro st hs; simp [runStages] at hs
  | cons s rest ih =>
    intro st hs
    simp only [runStages] at hs ⊢
    by_cases hr : s = Stage.ready
    · rw [if_pos hr] at hs ⊢
      exact ih st hs
    · rw [if_neg hr] at hs ⊢
      by_cases hx : (execStage B st s).1 = true
      · rw [if_pos hx] at hs ⊢
        obtain ⟨pre, e, hpre, hfe⟩ := ih _ hs
        refine ⟨(execStage B st s).2.2 ++ pre, e, ?_, hfe⟩
        rw [hpre, List.append_assoc]
      · rw [if_neg hx]
        exact execStage_fail_ends B st s (by simpa using hx)

end LifecycleRunStagesLemmas

section LifecycleOrderingLemmas

open Lifecycle

theorem execStage_trace_eq (B : Behavior) (st : LCState) (s : Stage)
    (hh : (runHandlers s (B.handlerOut s)).1 = true) :
    (execStage B st s).2.2 = (runHandlers s (B.handlerOut s)).2 ++
      (initComps B ((st.comps.filter
        (fun p => p.2.stage = s ∧ p.2.status = CStatus.pending)).map Prod.fst)
        st.comps).2.2 := by
  simp only [execStage]
  rw [if_pos hh]

theorem execStage_success_handlers (B : Behavior) (st : LCState) (s : Stage)
    (hs : (execStage B st s).1 = true) :
    (runHandlers s (B.handlerOut s)).1 = true := by
  by_contra hh
  simp only [execStage, if_neg hh] at hs
  simp at hs

theorem compStart_not_mem_handlerTrace (B : Behavior) (s : Stage) (n : String) :
    Ev.compStart n ∉ (runHandlers s (B.handlerOut s)).2 := by
  intro hc
  obtain ⟨b, hb⟩ := runHandlers_shape s _ _ hc
  exact absurd hb (by simp)

/-- The central ordering invariant of `initialize`: along any tail of the
(strictly stage-ordered) stage list, starting from a state whose components
for those stages are all pending, (i) every component start is preceded by
a successful completion of every component of every earlier stage, and
(ii) every component start is preceded by a successful run of its own
stage's handlers. -/
theorem runStages_ordering (B : Behavior) (stages : List Stage) :
    ∀ st : LCState,
      (st.comps.map Prod.fst).Nodup →
      List.Pairwise (fun a b : Stage => a.idx < b.idx) stages →
      (∀ n rc, lookupC st.comps n = some rc → rc.stage ∈ stages →
        rc.status = CStatus.pending) →
      (∀ n rc n2 rc2, lookupC st.comps n = some rc →
        lookupC st.comps n2 = some rc2 →
        rc.stage ∈ stages → rc2.stage ∈ stages →
        rc2.stage.idx < rc.stage.idx →
        Precedes (Ev.compDone n2 true) (Ev.compStart n)
          (runStages B stages st).2.2) ∧
      (∀ n rc, lookupC st.comps n = some rc → rc.stage ∈ stages →
        B.handlerOut rc.stage ≠ [] →
        Precedes (Ev.handlerRun rc.stage true) (Ev.compStart n)
          (runStages B stages st).2.2) := by
  induction stages with
  | nil =>
    intro st _ _ _
    constructor
    · intro n rc n2 rc2 _ _ hmem _ _
      exact absurd hmem (List.not_mem_nil _)
    · intro n rc _ hmem _
      exact absurd hmem (List.not_mem_nil _)
  | cons s rest ih =>
    intro st hKU hSInc hPend
    have hSI := List.pairwise_cons.mp hSInc
    have hsnr : s ∉ rest := fun hc => lt_irrefl s.idx (hSI.1 s hc)
    by_cases hr : s = Stage.ready
    · subst hr
      cases rest with
      | nil =>
        constructor
        · intro n rc n2 rc2 _ _ _ _ _
          exact precedes_of_not_mem (by simp [runStages])
        · intro n rc _ _ _
          exact precedes_of_not_mem (by simp [runStages])
      | cons b bs =>
        have hlt := hSI.1 b (List.mem_cons_self _ _)
        have hble : b.idx ≤ 5 := by cases b <;> decide
        have h5 : Stage.ready.idx = 5 := rfl
        constructor
        · intro n rc n2 rc2 _ _ _ _ _
          exact absurd hlt (by omega)
        · intro n rc _ _ _
          exact absurd hlt (by omega)
    · have hKU1 : ((execStage B st s).2.1.comps.map Prod.fst).Nodup := by
        rw [execStage_keys]; exact hKU
      have hPend1 : ∀ n rc', lookupC (execStage B st s).2.1.comps n = some rc' →
          rc'.stage ∈ rest → rc'.status = CStatus.pending := by
        intro n rc' hlk' hmem'
        have hkey : n ∈ st.comps.map Prod.fst := by
          rw [← execStage_keys B st s]
          exact List.mem_map.mpr ⟨(n, rc'), lookupC_mem hlk', rfl⟩
        obtain ⟨rc0, hlk0⟩ := key_mem_lookupC hkey
        obtain ⟨rc'', hlk'', hst''⟩ := execStage_lookup_some B st s hlk0
        rw [hlk'] at hlk''
        rw [Option.some.injEq] at hlk''
        have hstage0 : rc'.stage = rc0.stage := by rw [← hlk''] at hst''; exact hst''
        have hne0 : rc0.stage ≠ s := by
          rw [← hstage0]
          exact fun hc => hsnr (hc ▸ hmem')
        have hpres := execStage_lookup_preserved B st s hKU hlk0 hne0
        rw [hlk'] at hpres
        rw [Option.some.injEq] at hpres
        rw [hpres]
        exact hPend n rc0 hlk0 (List.mem_cons_of_mem _ (hstage0 ▸ hmem'))
      simp only [runStages, if_neg hr]
      by_cases hx : (execStage B st s).1 = true
      · rw [if_pos hx]
        simp only []
        have hIH := ih (execStage B st s).2.1 hKU1 hSI.2 hPend1
        constructor
        · intro n rc n2 rc2 hlk hlk2 hmem hmem2 hidx
          rcases List.mem_cons.mp hmem with hs1 | hs1
          · rcases List.mem_cons.mp hmem2 with hs2 | hs2
            · exact absurd hidx (by rw [hs1, hs2]; exact lt_irrefl _)
            · exact absurd hidx (by rw [hs1]; exact not_lt.mpr (le_of_lt (hSI.1 _ hs2)))
          · have hnes : rc.stage ≠ s := fun hc => hsnr (hc ▸ hs1)
            have hbn : Ev.compStart n ∉ (execStage B st s).2.2 :=
              execStage_start_not_mem B st s hKU hlk hnes
            rcases List.mem_cons.mp hmem2 with hs2 | hs2
            · have hdone : Ev.compDone n2 true ∈ (execStage B st s).2.2 :=
                execStage_success_done B st s hx n2 rc2 hlk2 hs2
                  (hPend n2 rc2 hlk2 hmem2)
              exact precedes_append_left_mem hdone hbn
            · have hnes2 : rc2.stage ≠ s := fun hc => hsnr (hc ▸ hs2)
              have hlk1 := execStage_lookup_preserved B st s hKU hlk hnes
              have hlk21 := execStage_lookup_preserved B st s hKU hlk2 hnes2
              exact precedes_append_lift
                (hIH.1 n rc n2 rc2 hlk1 hlk21 hs1 hs2 hidx) hbn
        · intro n rc hlk hmem hho
          rcases List.mem_cons.mp hmem with hs1 | hs1
          · have hh := execStage_success_handlers B st s hx
            have hteq := execStage_trace_eq B st s hh
            rw [hteq, List.append_assoc]
            have hho' : B.handlerOut s ≠ [] := hs1 ▸ hho
            have ha := runHandlers_success_mem s (B.handlerOut s) hh hho'
            rw [hs1]
            exact precedes_append_left_mem ha
              (compStart_not_mem_handlerTrace B s n)
          · have hnes : rc.stage ≠ s := fun hc => hsnr (hc ▸ hs1)
            have hbn : Ev.compStart n ∉ (execStage B st s).2.2 :=
              execStage_start_not_mem B st s hKU hlk hnes
            have hlk1 := execStage_lookup_preserved B st s hKU hlk hnes
            exact precedes_append_lift (hIH.2 n rc hlk1 hs1 hho) hbn
      · rw [if_neg hx]
        constructor
        · intro n rc n2 rc2 hlk hlk2 hmem hmem2 hidx
          rcases List.mem_cons.mp hmem with hs1 | hs1
          · rcases List.mem_cons.mp hmem2 with hs2 | hs2
            · exact absurd hidx (by rw [hs1, hs2]; exact lt_irrefl _)
            · exact absurd hidx (by rw [hs1]; exact not_lt.mpr (le_of_lt (hSI.1 _ hs2)))
          · have hnes : rc.stage ≠ s := fun hc => hsnr (hc ▸ hs1)
            exact precedes_of_not_mem
              (execStage_start_not_mem B st s hKU hlk hnes)
        · intro n rc hlk hmem hho
          rcases List.mem_cons.mp hmem with hs1 | hs1
          · by_cases hh : (runHandlers s (B.handlerOut s)).1 = true
            · have hteq := execStage_trace_eq B st s hh
              rw [hteq]
              have hho' : B.handlerOut s ≠ [] := hs1 ▸ hho
              have ha := runHandlers_success_mem s (B.handlerOut s) hh hho'
              rw [hs1]
              exact precedes_append_left_mem ha
                (compStart_not_mem_handlerTrace B s n)
            · have htr : (execStage B st s).2.2 =
                  (runHandlers s (B.handlerOut s)).2 := by
                simp only [execStage, if_neg hh]
              rw [htr]
              exact precedes_of_not_mem (compStart_not_mem_handlerTrace B s n)
          · have hnes : rc.stage ≠ s := fun hc => hsnr (hc ▸ hs1)
            exact precedes_of_not_mem
              (execStage_start_not_mem B st s hKU hlk hnes)

end LifecycleOrderingLemmas

section LifecycleShutdownLemmas

open Lifecycle

theorem shutComps_shape (B : Behavior) (names : List String) :
    ∀ m : List (String × CompRec), ∀ e ∈ (shutComps B names m).2,
      ∃ n b, e = Ev.compShutdown n b := by
  induction names with
  | nil => intro m e he; simp [shutComps] at he
  | cons n rest ih =>
    intro m e he
    simp only [shutComps, List.mem_cons] at he
    rcases he with rfl | he2
    · exact ⟨n, B.sdOk n, rfl⟩
    · exact ih _ e he2

theorem shutdownLM_shape (B : Behavior) (st : LCState) :
    ∀ e ∈ (shutdownLM B st).2,
      (∃ b, e = Ev.shutdownHandlerRun b) ∨
        ∃ n b, e = Ev.compShutdown n b := by
  intro e he
  simp only [shutdownLM] at he
  split_ifs at he
  · simp at he
  · rcases List.mem_append.mp he with h1 | h2
    · obtain ⟨b, -, hb⟩ := List.mem_map.mp h1
      exact Or.inl ⟨b, hb.symm⟩
    · exact Or.inr (shutComps_shape B _ _ e h2)

theorem shutdownLM_flag (B : Behavior) (st : LCState) :
    (shutdownLM B st).1.is_shutting_down = true := by
  simp only [shutdownLM]
  split_ifs with h
  · exact h
  · rfl

theorem compStart_not_mem_shutdownTrace (B : Behavior) (st : LCState)
    (n : String) :
    Ev.compStart n ∉ Ev.shutdownStarted :: (shutdownLM B st).2 := by
  intro hc
  rcases List.mem_cons.mp hc with h | h
  · exact absurd h (by simp)
  · rcases shutdownLM_shape B st _ h with ⟨b, hb⟩ | ⟨n2, b, hb⟩ <;>
      exact absurd hb (by simp)

theorem stage_mem_allStages (s : Stage) : s ∈ allStages := by
  cases s <;> simp [allStages]

theorem allStages_sorted :
    List.Pairwise (fun a b : Stage => a.idx < b.idx) allStages := by
  decide

end LifecycleShutdownLemmas

/-- Claim C4: lifecycle initialization executes stages strictly in declared
order.  For every registration sequence and every behaviour of the duck-typed
hooks: (i) a component's init hook is never entered before every component
of every earlier stage has completed successfully; (ii) a component's init
hook is never entered before its own stage's handlers have all run
successfully; (iii) initialize() returns failure exactly when some stage
handler or component init hook failed; and (iv) on failure the run stops at
the failing action (the pre-shutdown trace ends with it, aborting all
remaining stages), shutdown() is triggered, and only shutdown work follows. -/
theorem c4_staged_initialization (regs : List (String × Lifecycle.Stage))
    (B : Lifecycle.Behavior) :
    (∀ n rc n2 rc2,
      Lifecycle.lookupC (Lifecycle.mkInitial regs).comps n = some rc →
      Lifecycle.lookupC (Lifecycle.mkInitial regs).comps n2 = some rc2 →
      rc2.stage.idx < rc.stage.idx →
      Lifecycle.Precedes (Lifecycle.Ev.compDone n2 true)
        (Lifecycle.Ev.compStart n)
        (Lifecycle.initializeLM B (Lifecycle.mkInitial regs)).2.2) ∧
    (∀ n rc,
      Lifecycle.lookupC (Lifecycle.mkInitial regs).comps n = some rc →
      B.handlerOut rc.stage ≠ [] →
      Lifecycle.Precedes (Lifecycle.Ev.handlerRun rc.stage true)
        (Lifecycle.Ev.compStart n)
        (Lifecycle.initializeLM B (Lifecycle.mkInitial regs)).2.2) ∧
    ((Lifecycle.initializeLM B (Lifecycle.mkInitial regs)).1 = false ↔
      ∃ e ∈ (Lifecycle.initializeLM B (Lifecycle.mkInitial regs)).2.2,
        Lifecycle.isFailEv e = true) ∧
    ((Lifecycle.initializeLM B (Lifecycle.mkInitial regs)).1 = false →
      (Lifecycle.initializeLM B
          (Lifecycle.mkInitial regs)).2.1.is_shutting_down = true ∧
      ∃ pre sufx,
        (Lifecycle.initializeLM B (Lifecycle.mkInitial regs)).2.2 =
          pre ++ Lifecycle.Ev.shutdownStarted :: sufx ∧
        (∃ pre2 e, pre = pre2 ++ [e] ∧ Lifecycle.isFailEv e = true) ∧
        ∀ e ∈ sufx, (∃ b, e = Lifecycle.Ev.shutdownHandlerRun b) ∨
          ∃ n b, e = Lifecycle.Ev.compShutdown n b) := by
  have hini : ¬ ((Lifecycle.mkInitial regs).is_initialized = true) := by
    simp [Lifecycle.mkInitial]
  have hPend0 : ∀ n rc,
      Lifecycle.lookupC (Lifecycle.mkInitial regs).comps n = some rc →
      rc.stage ∈ Lifecycle.allStages → rc.status = Lifecycle.CStatus.pending :=
    fun n rc hlk _ => mkInitial_pending regs (n, rc) (lookupC_mem hlk)
  have hOrd := runStages_ordering B Lifecycle.allStages
    (Lifecycle.mkInitial regs) (mkInitial_nodup regs) allStages_sorted hPend0
  by_cases hrs : (Lifecycle.runStages B Lifecycle.allStages
      (Lifecycle.mkInitial regs)).1 = true
  · have heq : Lifecycle.initializeLM B (Lifecycle.mkInitial regs) =
        (true,
          { (Lifecycle.runStages B Lifecycle.allStages
              (Lifecycle.mkInitial regs)).2.1 with is_initialized := true },
          (Lifecycle.runStages B Lifecycle.allStages
            (Lifecycle.mkInitial regs)).2.2) := by
      simp only [Lifecycle.initializeLM, if_neg hini, if_pos hrs]
    rw [heq]
    refine ⟨?_, ?_, ?_, ?_⟩
    · intro n rc n2 rc2 hlk hlk2 hidx
      exact hOrd.1 n rc n2 rc2 hlk hlk2 (stage_mem_allStages _)
        (stage_mem_allStages _) hidx
    · intro n rc hlk hho
      exact hOrd.2 n rc hlk (stage_mem_allStages _) hho
    · constructor
      · intro hfalse
        simp at hfalse
      · rintro ⟨e, he, hf⟩
        have := runStages_success_ok B Lifecycle.allStages
          (Lifecycle.mkInitial regs) hrs e he
        rw [this] at hf
        simp at hf
    · intro hfalse
      simp at hfalse
  · have hrs' : (Lifecycle.runStages B Lifecycle.allStages
        (Lifecycle.mkInitial regs)).1 = false := by simpa using hrs
    have heq : Lifecycle.initializeLM B (Lifecycle.mkInitial regs) =
        (false,
          (Lifecycle.shutdownLM B (Lifecycle.runStages B Lifecycle.allStages
            (Lifecycle.mkInitial regs)).2.1).1,
          (Lifecycle.runStages B Lifecycle.allStages
              (Lifecycle.mkInitial regs)).2.2 ++
            Lifecycle.Ev.shutdownStarted ::
              (Lifecycle.shutdownLM B (Lifecycle.runStages B
                Lifecycle.allStages (Lifecycle.mkInitial regs)).2.1).2) := by
      simp only [Lifecycle.initializeLM, if_neg hini, if_neg hrs]
    rw [heq]
    obtain ⟨pre0, e0, hpre0, hfe0⟩ := runStages_fail_ends B Lifecycle.allStages
      (Lifecycle.mkInitial regs) hrs'
    refine ⟨?_, ?_, ?_, ?_⟩
    · intro n rc n2 rc2 hlk hlk2 hidx
      exact precedes_extend_right
        (hOrd.1 n rc n2 rc2 hlk hlk2 (stage_mem_allStages _)
          (stage_mem_allStages _) hidx)
        (compStart_not_mem_shutdownTrace B _ n)
    · intro n rc hlk hho
      exact precedes_extend_right
        (hOrd.2 n rc hlk (stage_mem_allStages _) hho)
        (compStart_not_mem_shutdownTrace B _ n)
    · refine iff_of_true rfl ?_
      exact ⟨e0, List.mem_append_left _
        (hpre0 ▸ List.mem_append_right pre0 (List.mem_cons_self e0 [])), hfe0⟩
    · intro _
      refine ⟨shutdownLM_flag B _, ?_⟩
      refine ⟨(Lifecycle.runStages B Lifecycle.allStages
          (Lifecycle.mkInitial regs)).2.2,
        (Lifecycle.shutdownLM B (Lifecycle.runStages B Lifecycle.allStages
          (Lifecycle.mkInitial regs)).2.1).2, rfl, ⟨pre0, e0, hpre0, hfe0⟩, ?_⟩
      exact shutdownLM_shape B _

theorem c4_witness :
    Lifecycle.Precedes (Lifecycle.Ev.compDone ("alpha") true)
      (Lifecycle.Ev.compStart ("beta"))
      (Lifecycle.initializeLM
        ⟨fun _ => true, fun _ => [true], [], fun _ => true⟩
        (Lifecycle.mkInitial
          [("alpha", .setup_logging), ("beta", .load_configuration)])).2.2 ∧
    Lifecycle.Precedes (Lifecycle.Ev.handlerRun Lifecycle.Stage.setup_logging true)
      (Lifecycle.Ev.compStart ("alpha"))
      (Lifecycle.initializeLM
        ⟨fun _ => true, fun _ => [true], [], fun _ => true⟩
        (Lifecycle.mkInitial
          [("alpha", .setup_logging), ("beta", .load_configuration)])).2.2 ∧
    ((Lifecycle.initializeLM
        ⟨fun _ => false, fun _ => [], [], fun _ => true⟩
        (Lifecycle.mkInitial
          [("alpha", .setup_logging),
            ("beta", .load_configuration)])).2.1.is_shutting_down = true ∧
      ∃ pre sufx,
        (Lifecycle.initializeLM
          ⟨fun _ => false, fun _ => [], [], fun _ => true⟩
          (Lifecycle.mkInitial
            [("alpha", .setup_logging), ("beta", .load_configuration)])).2.2 =
            pre ++ Lifecycle.Ev.shutdownStarted :: sufx ∧
        (∃ pre2 e, pre = pre2 ++ [e] ∧ Lifecycle.isFailEv e = true) ∧
        ∀ e ∈ sufx, (∃ b, e = Lifecycle.Ev.shutdownHandlerRun b) ∨
          ∃ n b, e = Lifecycle.Ev.compShutdown n b) :=
  ⟨(c4_staged_initialization
      [("alpha", .setup_logging), ("beta", .load_configuration)]
      ⟨fun _ => true, fun _ => [true], [], fun _ => true⟩).1
      ("beta") ⟨.load_configuration, .pending⟩
      ("alpha") ⟨.setup_logging, .pending⟩ rfl rfl (by decide),
   (c4_staged_initialization
      [("alpha", .setup_logging), ("beta", .load_configuration)]
      ⟨fun _ => true, fun _ => [true], [], fun _ => true⟩).2.1
      ("alpha") ⟨.setup_logging, .pending⟩ rfl (by decide),
   (c4_staged_initialization
      [("alpha", .setup_logging), ("beta", .load_configuration)]
      ⟨fun _ => false, fun _ => [], [], fun _ => true⟩).2.2.2 (by decide)⟩
